import Mathlib

/-!
Shallow embedding of `src/modules/fretboard.js` (the fret-mapping module of the
repository) and verification of its specification claims.

The module under `src/` imports four collaborators that are part of the
repository but not under `src/`: the chromatic note list `notes` and the model
registry `models` (from '@/modules/music'), the constants `NB_FRETS` and
`MAX_NB_FRETS` (from '@/modules/constants'), the interval generator
`intervalsForSequence` (from '@/modules/intervals') and the visual-flip
corrector `shiftSequencesDown` (from '@/modules/shift12').  Those are modelled
from the spec: `notes` and the two constants as concrete spec-modelled values,
and the genuinely open collaborators (`models`, `intervalsForSequence`,
`shiftSequencesDown`) as parameters bundled in a context `Ctx`.

JavaScript semantics is embedded faithfully:
* array indexing with an out-of-range or negative index yields `undefined`,
  and dereferencing `undefined` throws; computations that can throw return
  `Except Unit` and a thrown `TypeError` is `.error ()`;
* `Array.prototype.indexOf` / `findIndex` return `-1` on a miss (`jsIndexOf`,
  `jsFindIndex` below, returning `Int`);
* the `%` operator is the truncated remainder (`Int.tmod`);
* `Array.prototype.sort` is stable (ES2019), so sorting with the two-class
  comparator of the source is the stable partition by `isIntersected`.
-/

namespace Fretboard

/-- The sharp of a natural note name. -/
def sharp (note : String) : String :=
  note ++ "#"

/-- Modelled from the spec (§3, §6): the fixed ordered 12-note chromatic set
(`notes` from '@/modules/music', which is not under `src/`).  All arithmetic
below only uses its length (12), ordering and distinctness. -/
def notes : List String :=
  ["C", sharp "C", "D", sharp "D", "E", "F", sharp "F", "G", sharp "G", "A", sharp "A", "B"]

/-- Modelled from the spec: `NB_FRETS` from '@/modules/constants' (not under
`src/`), the per-string fret count.  The spec's octave-duplication design
(§4.2–§4.3, §8) needs the wraparound `(f + 12) % NB_FRETS` to land on the
octave mate of `f` and the extension renumbering `n ↦ n + NB_FRETS` to
preserve pitch classes, which forces `NB_FRETS = 24`. -/
def NB_FRETS : Nat := 24

/-- Modelled from the spec: `MAX_NB_FRETS` from '@/modules/constants' (not
under `src/`), the extended fret count, "a constant larger than the visible
range" (§4.2). -/
def MAX_NB_FRETS : Nat := 27

/-- A sequence descriptor (spec §3). -/
structure Sequence where
  tonality : String
  model : String
  position : Int
  customFretBounds : Int × Int
  isIntersected : Bool
  highlightedInterval : Int
deriving DecidableEq

/-- A `{index, interval}` tag pushed onto a fret's `sequences` list. -/
structure SeqTag where
  index : Nat
  interval : Int
deriving DecidableEq

/-- An output fret cell (spec §3). -/
structure Fret where
  string : Nat
  number : Nat
  note : String
  sequences : List SeqTag
  isHighlighted : Bool
deriving DecidableEq

/-- An entry of the model registry: an optional positions table
(spec §3, "Model registry"). -/
structure Model where
  positions : Option (List (Int × Int))

/-- The external collaborators of the module (spec §6), passed explicitly:
the model registry, the interval-sequence generator and the visual-flip
corrector. -/
structure Ctx where
  models : String → Option Model
  intervalsForSequence : Sequence → List Int
  shiftSequencesDown : List Fret → List Fret

/-- JS `Array.prototype.indexOf`: index of the first occurrence, `-1` if
absent. -/
def jsIndexOf (l : List String) (x : String) : Int :=
  match l with
  | [] => -1
  | a :: as =>
    if a = x then 0
    else
      let r := jsIndexOf as x
      if r = -1 then -1 else r + 1

/-- JS `Array.prototype.findIndex`: index of the first element satisfying
`p`, `-1` if none. -/
def jsFindIndex {α : Type} (l : List α) (p : α → Bool) : Int :=
  match l with
  | [] => -1
  | a :: as =>
    if p a then 0
    else
      let r := jsFindIndex as p
      if r = -1 then -1 else r + 1

/-- JS indexing `arr[i]` with an `Int` index: `undefined` is `none`. -/
def jsGet {α : Type} (l : List α) (i : Int) : Option α :=
  if i < 0 then none else l.get? i.toNat

/-- JS `arr.slice(0, stop)` with a possibly negative `stop` (a negative stop
counts from the end of the array). -/
def jsSliceTo {α : Type} (l : List α) (stop : Int) : List α :=
  l.take (if stop < 0 then ((l.length : Int) + stop).toNat else stop.toNat)

/-- `getInterval` (fretboard.js lines 125–130): the upward half-step distance
between two notes, computed from `indexOf` results (which are `-1` for a
string outside `notes`; the source has no error handling). -/
def getInterval (note1 note2 : String) : Int :=
  let index1 := jsIndexOf notes note1
  let index2 := jsIndexOf notes note2
  if index1 ≤ index2 then index2 - index1
  else (notes.length : Int) - (index1 - index2)

/-- `isInPosition` (fretboard.js lines 111–118): window test with wraparound
when `start ≥ stop`. -/
def isInPosition (fretNumber : Int) (position : Int × Int) (offset : Int) : Bool :=
  let start := position.1 + offset
  let stop := position.2 + offset
  if start < stop then decide (start ≤ fretNumber ∧ fretNumber ≤ stop)
  else decide (start ≤ fretNumber ∨ fretNumber ≤ stop)

/-- `shouldDisplayFret` (fretboard.js lines 91–106).  A missing registry entry
makes the JS `'positions' in models[seq.model]` throw, and a missing positions
row makes `position[0]` inside `isInPosition` throw; both are `.error ()`.
An out-of-range `positionOffsets[index]` is `undefined` in JS, which turns
both window bounds into `NaN` and makes both comparisons false. -/
def shouldDisplayFret (ctx : Ctx) (fret : Int) (index : Nat) (seq : Sequence)
    (positionOffsets : List Int) : Except Unit Bool :=
  if seq.position = -1 then
    .ok (decide (seq.customFretBounds.1 ≤ fret ∧ fret ≤ seq.customFretBounds.2))
  else if seq.position = 0 then
    .ok true
  else
    match ctx.models seq.model with
    | none => .error ()
    | some m =>
      match m.positions with
      | none => .ok true
      | some ps =>
        match jsGet ps (seq.position - 1) with
        | none => .error ()
        | some p =>
          match positionOffsets.get? index with
          | none => .ok false
          | some offset => .ok (isInPosition fret p offset)

/-- The push inside `applyInterval` (fretboard.js line 60 and lines 62–63):
append the `{index, interval}` tag and set the highlight flag when the
interval is the highlighted one. -/
def pushTag (f : Fret) (index : Nat) (interval : Int) (highlightedInterval : Int) : Fret :=
  { f with
    sequences := f.sequences ++ [⟨index, interval⟩]
    isHighlighted := if interval = highlightedInterval then true else f.isHighlighted }

/-- One iteration of the pair loop inside `applyInterval` (fretboard.js lines
54–64): skip the fret if `shouldDisplayFret` is false, otherwise mutate
`frets[fret]` (throwing if that cell is `undefined`). -/
def markPair (ctx : Ctx) (positionOffsets : List Int) (index : Nat) (seq : Sequence)
    (interval : Int) (frets : List Fret) (fret : Int) : Except Unit (List Fret) := do
  let b ← shouldDisplayFret ctx fret index seq positionOffsets
  if b then
    match jsGet frets fret with
    | none => .error ()
    | some f => pure (frets.set fret.toNat (pushTag f index interval seq.highlightedInterval))
  else
    pure frets

/-- The `[fretNumber, (fretNumber + 12) % NB_FRETS].forEach(...)` loop of
`applyInterval` (fretboard.js line 54). -/
def applyToPair (ctx : Ctx) (positionOffsets : List Int) (index : Nat) (seq : Sequence)
    (interval : Int) (frets : List Fret) (fretNumber : Int) : Except Unit (List Fret) :=
  [fretNumber, (fretNumber + 12).tmod (NB_FRETS : Int)].foldlM
    (markPair ctx positionOffsets index seq interval) frets

/-- `applyInterval` (fretboard.js lines 47–65): the intersected guard reads
`frets[fretNumber].sequences` (throwing when that cell is `undefined`) and
returns early when the target fret carries no tag yet; otherwise the tag is
applied to the target fret and its octave mate. -/
def applyInterval (ctx : Ctx) (positionOffsets : List Int) (index : Nat) (seq : Sequence)
    (rootFret : Int) (frets : List Fret) (interval : Int) : Except Unit (List Fret) :=
  let fretNumber : Int := rootFret + interval
  if seq.isIntersected then
    match jsGet frets fretNumber with
    | none => .error ()
    | some f =>
      if f.sequences.length = 0 then .ok frets
      else applyToPair ctx positionOffsets index seq interval frets fretNumber
  else applyToPair ctx positionOffsets index seq interval frets fretNumber

/-- The body of `sortedSequences.forEach` (fretboard.js lines 42–70) for one
sequence: find the root fret on this string, then apply the root interval and
every generated interval. -/
def markSequence (ctx : Ctx) (positionOffsets : List Int) (frets : List Fret)
    (index : Nat) (seq : Sequence) : Except Unit (List Fret) :=
  let rootFret := jsFindIndex frets (fun f => f.note = seq.tonality)
  ((0 : Int) :: ctx.intervalsForSequence seq).foldlM
    (applyInterval ctx positionOffsets index seq rootFret) frets

/-- The whole marking pass over a list of (index, sequence) pairs.  The source
iterates `sortedSequences.forEach(function(seq, index) ...)`, i.e. over
`(sortSequences sequences).enum`; the pair list is abstracted here so that the
spec-order variant (input-order indices) can reuse the same pass. -/
def markAllWith (ctx : Ctx) (positionOffsets : List Int)
    (pairs : List (Nat × Sequence)) (frets : List Fret) : Except Unit (List Fret) :=
  pairs.foldlM (fun fs p => markSequence ctx positionOffsets fs p.1 p.2) frets

/-- One cell of the initial per-string fret row (fretboard.js lines 33–39).
The capo term of the note computation is commented out in the source.  When
`openStringNote` is outside `notes`, `indexOf` is `-1` and JS evaluates
`notes[-1 % 12]`, which is `undefined` for fret 0; the stand-in string
"undefined" plays that role. -/
def mkFret (openStringNote : String) (stringNumber fretNumber : Nat) : Fret :=
  { string := stringNumber
    number := fretNumber
    note :=
      match jsGet notes ((jsIndexOf notes openStringNote + (fretNumber : Int)).tmod
        ((notes.length : Nat) : Int)) with
      | some n => n
      | none => "undefined"
    sequences := []
    isHighlighted := false }

/-- The initial fret row of one string (fretboard.js line 33). -/
def mkFrets (openStringNote : String) (stringNumber : Nat) : List Fret :=
  (List.range NB_FRETS).map (mkFret openStringNote stringNumber)

/-- `sortedSequences` (fretboard.js lines 23–28): `[...sequences].sort(cmp)`
where `cmp` puts intersected sequences after non-intersected ones and returns
0 otherwise.  `Array.prototype.sort` is stable, so this is the stable
partition by `isIntersected`. -/
def sortSequences (sequences : List Sequence) : List Sequence :=
  sequences.filter (fun s => !s.isIntersected) ++
    sequences.filter (fun s => s.isIntersected)

/-- One string's row: build, mark, then extend by duplicating the renumbered
prefix (fretboard.js lines 31–74). -/
def stringFrets (ctx : Ctx) (positionOffsets : List Int)
    (pairs : List (Nat × Sequence)) (stringNumber : Nat) (openStringNote : String) :
    Except Unit (List Fret) := do
  let frets := mkFrets openStringNote stringNumber
  let marked ← markAllWith ctx positionOffsets pairs frets
  pure (marked ++ (jsSliceTo marked ((MAX_NB_FRETS : Int) - (NB_FRETS : Int))).map
    (fun f => { f with number := f.number + NB_FRETS }))

/-- `lowestTuningNote` (fretboard.js lines 15–16): the last element of the
tuning when flipped, the first otherwise ("undefined" standing in for the JS
`undefined` of an empty array, a string outside `notes`). -/
def lowestTuningNote (tuningNotes : List String) (flipped : Bool) : String :=
  if flipped then tuningNotes.getD (tuningNotes.length - 1) "undefined"
  else tuningNotes.getD 0 "undefined"

/-- `positionOffsets` (fretboard.js lines 18–20): the per-sequence offset, in
input order. -/
def positionOffsets (sequences : List Sequence) (tuningNotes : List String)
    (flipped : Bool) : List Int :=
  sequences.map (fun seq => getInterval (lowestTuningNote tuningNotes flipped) seq.tonality)

/-- The pipeline of `getFrets` up to (and including) `shiftSequencesDown`,
parameterised by the (index, sequence) processing list (the source passes
`(sortSequences sequences).enum`). -/
def corePipeline (ctx : Ctx) (sequences : List Sequence) (tuningNotes : List String)
    (flipped : Bool) (pairs : List (Nat × Sequence)) : Except Unit (List Fret) := do
  let allFrets ← tuningNotes.enum.foldlM
    (fun acc p => do
      let fs ← stringFrets ctx (positionOffsets sequences tuningNotes flipped) pairs p.1 p.2
      pure (acc ++ fs)) []
  pure (ctx.shiftSequencesDown allFrets)

/-- `getFrets` without the final capo filter (fretboard.js lines 9–77). -/
def getFretsCore (ctx : Ctx) (sequences : List Sequence) (tuningNotes : List String)
    (flipped : Bool) : Except Unit (List Fret) :=
  corePipeline ctx sequences tuningNotes flipped ((sortSequences sequences).enum)

/-- `filterCapo` (fretboard.js lines 83–88). -/
def filterCapo (frets : List Fret) (capo : Nat) : List Fret :=
  frets.map (fun fret =>
    { fret with sequences := if fret.number < capo then [] else fret.sequences })

/-- `getFrets` (fretboard.js lines 9–81): the capo parameter is used only by
the final `filterCapo` pass (its use in the note computation is commented
out in the source). -/
def getFrets (ctx : Ctx) (sequences : List Sequence) (tuningNotes : List String)
    (capo : Nat) (flipped : Bool) : Except Unit (List Fret) :=
  (getFretsCore ctx sequences tuningNotes flipped).map (fun g => filterCapo g capo)

/-! ### Spec-side definitions used for comparison -/

/-- The spec's interval contract (§4.1, §7), stated in the spec's words: the
value is `(index(note2) - index(note1)) mod 12` and the computation fails with
an `InvalidNote` error when either note is outside the chromatic set.  Used
only to compare the source's `getInterval` against the spec. -/
def getIntervalSpec (note1 note2 : String) : Except Unit Int :=
  if note1 ∈ notes ∧ note2 ∈ notes then
    .ok ((jsIndexOf notes note2 - jsIndexOf notes note1) % 12)
  else .error ()

/-- Stable partition of enumerated pairs by the `isIntersected` flag of the
sequence component, keeping the original indices. -/
def sortEnumSequences (pairs : List (Nat × Sequence)) : List (Nat × Sequence) :=
  pairs.filter (fun p => !p.2.isIntersected) ++ pairs.filter (fun p => p.2.isIntersected)

/-- The marking pass as the spec words it (§4.3): sequences are processed in
the intersected-last order, but each tag records the sequence's position in
the caller-supplied input list, and the position-offset lookup uses that same
input position.  Identical to `getFretsCore` except for the index paired with
each processed sequence. -/
def getFretsCoreSpecOrder (ctx : Ctx) (sequences : List Sequence)
    (tuningNotes : List String) (flipped : Bool) : Except Unit (List Fret) :=
  corePipeline ctx sequences tuningNotes flipped (sortEnumSequences sequences.enum)

/-- `getFrets` with the spec's input-order tag indices (see
`getFretsCoreSpecOrder`). -/
def getFretsSpecOrder (ctx : Ctx) (sequences : List Sequence) (tuningNotes : List String)
    (capo : Nat) (flipped : Bool) : Except Unit (List Fret) :=
  (getFretsCoreSpecOrder ctx sequences tuningNotes flipped).map (fun g => filterCapo g capo)

/-- The capo post-pass in the words of the spec's algebraic claim: frets below
the capo keep all fields but lose their tags, frets at or above it are
unchanged. -/
def capoTruncate (capo : Nat) (g : List Fret) : List Fret :=
  g.map (fun f => if f.number < capo then { f with sequences := [] } else f)

/-- The tag list of the `k`-th fret of a grid computation (empty for an error
or an out-of-range index); used to state concrete counterexamples. -/
def tagsAt (e : Except Unit (List Fret)) (k : Nat) : List SeqTag :=
  match e with
  | .ok g =>
    match g.get? k with
    | some f => f.sequences
    | none => []
  | .error _ => []

/-- The fret `k` of a grid computation carries the tag `tag`. -/
def tagAt (fs : List Fret) (k : Nat) (tag : SeqTag) : Prop :=
  ∃ f, fs.get? k = some f ∧ tag ∈ f.sequences

/-- The identity fields of a fret (everything except its tags and highlight
flag). -/
def skel (f : Fret) : Nat × Nat × String :=
  (f.string, f.number, f.note)

/-- The chromatic note of the `k`-th fret of a string whose open note is
`o` (meaningful when `o ∈ notes`). -/
def noteAt (o : String) (k : Nat) : String :=
  match notes.get? (((jsIndexOf notes o).toNat + k) % 12) with
  | some n => n
  | none => "undefined"

/-- The octave mate of a base-row fret index: `k + 12` for the lower octave,
`k - 12` for the upper one. -/
def mate (k : Nat) : Nat :=
  if k < 12 then k + 12 else k - 12

/-- The position-window filter suppresses fret `k` for the tag `tag`: some
processed pair carries the tag's index and its sequence's filter does not
answer `ok true` at `k`. -/
def SuppressedAt (ctx : Ctx) (offs : List Int) (pairs : List (Nat × Sequence))
    (tag : SeqTag) (k : Nat) : Prop :=
  ∃ p ∈ pairs, p.1 = tag.index ∧ shouldDisplayFret ctx (k : Int) p.1 p.2 offs ≠ .ok true

/-- Invariant of the marking pass over a base row `base`: the length and the
note of every cell are preserved, and every tag sits on its octave mate as
well unless the position filter suppressed the mate. -/
def MarkInv (ctx : Ctx) (offs : List Int) (pairs : List (Nat × Sequence))
    (base fs : List Fret) : Prop :=
  fs.length = base.length ∧
  fs.map Fret.note = base.map Fret.note ∧
  ∀ k : Nat, k < 24 → ∀ tag, tagAt fs k tag →
    tagAt fs (mate k) tag ∨ SuppressedAt ctx offs pairs tag (mate k)

/-- A sequence's position configuration is resolvable: either no window, a
custom window, or a window row that its model's table actually defines (the
situations in which the JS `shouldDisplayFret` cannot throw). -/
def ValidPositionConfig (ctx : Ctx) (s : Sequence) : Prop :=
  s.position = -1 ∨ s.position = 0 ∨
    ∃ m, ctx.models s.model = some m ∧
      (m.positions = none ∨
        ∃ ps row, m.positions = some ps ∧ jsGet ps (s.position - 1) = some row)

/-- The note-formula property of a fret skeleton `(string, number, note)`
over a tuning: the note is the chromatic note at
`(index of the string's open note + fret number) mod 12`. -/
def NoteFormula (tuningNotes : List String) (x : Nat × Nat × String) : Prop :=
  ∃ op, tuningNotes.get? x.1 = some op ∧
    notes.get? (((jsIndexOf notes op).toNat + x.2.1) % 12) = some x.2.2

/-! ### Concrete instances used by witnesses and counterexamples -/

/-- A registry entry with the single position window `[10, 2]`. -/
def model9 : Model := { positions := some [(10, 2)] }

/-- A context whose registry maps every model name to `model9`. -/
def ctx9 : Ctx :=
  { models := fun _ => some model9
    intervalsForSequence := fun _ => []
    shiftSequencesDown := id }

/-- A sequence displayed in position 1 of its model. -/
def seq9 : Sequence :=
  { tonality := "C", model := "m", position := 1, customFretBounds := (0, 0)
    isIntersected := false, highlightedInterval := -1 }

/-- A context with an empty registry, no generated intervals beyond the root,
and an identity flip corrector. -/
def ctxPlain : Ctx :=
  { models := fun _ => none
    intervalsForSequence := fun _ => []
    shiftSequencesDown := id }

/-- An intersected whole-scale sequence rooted at D. -/
def seqDInter : Sequence :=
  { tonality := "D", model := "m", position := 0, customFretBounds := (0, 0)
    isIntersected := true, highlightedInterval := -1 }

/-- A non-intersected whole-scale sequence rooted at C. -/
def seqCPlain : Sequence :=
  { tonality := "C", model := "m", position := 0, customFretBounds := (0, 0)
    isIntersected := false, highlightedInterval := -1 }

/-- A non-intersected sequence rooted at C, displayed only on the custom fret
window `[0, 0]`. -/
def seqCBounded : Sequence :=
  { tonality := "C", model := "m", position := -1, customFretBounds := (0, 0)
    isIntersected := false, highlightedInterval := -1 }

/-- An intersected whole-scale sequence rooted at C. -/
def seqCInter : Sequence :=
  { tonality := "C", model := "m", position := 0, customFretBounds := (0, 0)
    isIntersected := true, highlightedInterval := -1 }

/-- A registry entry with the single position window `[11, 12]`. -/
def modelW : Model := { positions := some [(11, 12)] }

/-- A context whose registry maps every model name to `modelW`. -/
def ctxW : Ctx :=
  { models := fun _ => some modelW
    intervalsForSequence := fun _ => []
    shiftSequencesDown := id }

/-- A whole-scale sequence whose tonality "X" is outside the chromatic set. -/
def seqX : Sequence :=
  { tonality := "X", model := "m", position := 0, customFretBounds := (0, 0)
    isIntersected := false, highlightedInterval := -1 }

/-- A single-sequence processing list: `seqCPlain` at index 0. -/
def c4Pairs : List (Nat × Sequence) := [(0, seqCPlain)]

/-- The marked C string for the processing list `c4Pairs`. -/
def c4Grid : List Fret :=
  match markAllWith ctxPlain [0] c4Pairs (mkFrets "C" 0) with
  | .ok g => g
  | .error _ => []

/-- The C string after applying the root interval of `seqCPlain` once. -/
def c4Apply : List Fret :=
  match applyInterval ctxPlain [0] 0 seqCPlain 0 (mkFrets "C" 0) 0 with
  | .ok g => g
  | .error _ => []

/-! ### Basic lemmas about the JS helpers -/

theorem jsIndexOf_ge_neg_one (l : List String) (x : String) : -1 ≤ jsIndexOf l x := by
  induction l with
  | nil => simp [jsIndexOf]
  | cons a as ih =>
    simp only [jsIndexOf]
    split
    · omega
    · split <;> omega

theorem jsIndexOf_of_not_mem {l : List String} {x : String} (h : x ∉ l) :
    jsIndexOf l x = -1 := by
  induction l with
  | nil => simp [jsIndexOf]
  | cons a as ih =>
    simp only [jsIndexOf]
    rw [if_neg (by rintro rfl; exact h (List.mem_cons_self _ _))]
    rw [ih (fun hx => h (List.mem_cons_of_mem _ hx))]
    simp

theorem jsIndexOf_mem_bounds {l : List String} {x : String} (h : x ∈ l) :
    0 ≤ jsIndexOf l x ∧ jsIndexOf l x < (l.length : Int) := by
  induction l with
  | nil => cases h
  | cons a as ih =>
    simp only [jsIndexOf]
    by_cases hax : a = x
    · rw [if_pos hax]
      simp only [List.length_cons]
      constructor
      · omega
      · push_cast
        omega
    · rw [if_neg hax]
      have hx : x ∈ as := by
        cases h with
        | head => exact absurd rfl hax
        | tail _ h' => exact h'
      have hb := ih hx
      have : ¬ jsIndexOf as x = -1 := by omega
      rw [if_neg this]
      simp only [List.length_cons]
      constructor
      · omega
      · push_cast
        omega

theorem jsIndexOf_get? {l : List String} {x : String} (h : x ∈ l) :
    l.get? (jsIndexOf l x).toNat = some x := by
  induction l with
  | nil => cases h
  | cons a as ih =>
    simp only [jsIndexOf]
    by_cases hax : a = x
    · rw [if_pos hax, hax]
      rfl
    · rw [if_neg hax]
      have hx : x ∈ as := by
        cases h with
        | head => exact absurd rfl hax
        | tail _ h' => exact h'
      have hb := jsIndexOf_mem_bounds hx
      have hne : ¬ jsIndexOf as x = -1 := by omega
      rw [if_neg hne]
      have : (jsIndexOf as x + 1).toNat = (jsIndexOf as x).toNat + 1 := by omega
      rw [this]
      simpa using ih hx

theorem snd_mem_of_mem_enumFrom {α : Type} :
    ∀ (l : List α) (n : Nat) (p : Nat × α), p ∈ l.enumFrom n → p.2 ∈ l := by
  intro l
  induction l with
  | nil =>
    intro n p h
    cases h
  | cons a as ih =>
    intro n p h
    simp only [List.enumFrom] at h
    cases h with
    | head => exact List.mem_cons_self _ _
    | tail _ h' => exact List.mem_cons_of_mem _ (ih (n + 1) p h')

theorem snd_mem_of_mem_enum {α : Type} {l : List α} {p : Nat × α}
    (h : p ∈ l.enum) : p.2 ∈ l :=
  snd_mem_of_mem_enumFrom l 0 p h

/-! ### Claim C6 -/

/-- Claim C6: for notes `a`, `b` in the chromatic set, `getInterval a b`
equals `(index b - index a) mod 12`, lies in `[0, 11]`, satisfies
`getInterval a a = 0`, and `getInterval a b + getInterval b a ≡ 0 (mod 12)`. -/
theorem getInterval_chromatic_contract (a b : String) (ha : a ∈ notes) (hb : b ∈ notes) :
    getInterval a b = (jsIndexOf notes b - jsIndexOf notes a) % 12 ∧
    0 ≤ getInterval a b ∧ getInterval a b ≤ 11 ∧
    getInterval a a = 0 ∧
    (getInterval a b + getInterval b a) % 12 = 0 := by
  simp only [notes] at ha hb
  fin_cases ha <;> fin_cases hb <;> decide

/-- Witness for C6 at the concrete notes `C` and `E`. -/
theorem getInterval_chromatic_contract_witness :
    "C" ∈ notes ∧ "E" ∈ notes ∧
    (getInterval "C" "E" = (jsIndexOf notes "E" - jsIndexOf notes "C") % 12 ∧
     0 ≤ getInterval "C" "E" ∧ getInterval "C" "E" ≤ 11 ∧
     getInterval "C" "C" = 0 ∧
     (getInterval "C" "E" + getInterval "E" "C") % 12 = 0) :=
  ⟨by decide, by decide, getInterval_chromatic_contract "C" "E" (by decide) (by decide)⟩

/-! ### Claim C7 -/

/-- Counterexample for C7: with the invalid note "X", the source's
`getInterval` does not fail; it returns the integer `1` (because `indexOf`
yields `-1`), where the spec's contract demands an `InvalidNote` error. -/
theorem getInterval_invalid_note_no_error :
    "X" ∉ notes ∧ getInterval "X" "C" = 1 ∧ getIntervalSpec "X" "C" = .error () :=
  ⟨by decide, by decide, rfl⟩

/-- Claim C7 as amended: `getInterval` is total and never raises an error; an
argument outside the chromatic set is treated as having index `-1`, so with
`note1` invalid the result is `index(note2) + 1` (in particular `0` when both
are invalid and possibly `12`, outside `[0, 11]`), and with only `note2`
invalid it is `11 - index(note1)`.  The spec-contract version errors
instead. -/
theorem getInterval_invalid_note_total (a b : String) (h : a ∉ notes ∨ b ∉ notes) :
    getIntervalSpec a b = .error () ∧
    (a ∉ notes → getInterval a b = jsIndexOf notes b + 1) ∧
    (a ∈ notes → b ∉ notes → getInterval a b = 11 - jsIndexOf notes a) := by
  refine ⟨?_, ?_, ?_⟩
  · simp only [getIntervalSpec]
    rw [if_neg]
    tauto
  · intro ha
    simp only [getInterval, jsIndexOf_of_not_mem ha]
    rw [if_pos (jsIndexOf_ge_neg_one notes b)]
    omega
  · intro ha hb
    have h1 := jsIndexOf_mem_bounds ha
    simp only [getInterval, jsIndexOf_of_not_mem hb]
    rw [if_neg (by omega)]
    simp only [notes, List.length]
    omega

/-- Witness for the amended C7 at `a = "X"`, `b = "C"`. -/
theorem getInterval_invalid_note_total_witness :
    ("X" ∉ notes ∨ "C" ∉ notes) ∧
    (getIntervalSpec "X" "C" = .error () ∧
     ("X" ∉ notes → getInterval "X" "C" = jsIndexOf notes "C" + 1) ∧
     ("X" ∈ notes → "C" ∉ notes → getInterval "X" "C" = 11 - jsIndexOf notes "X")) :=
  ⟨Or.inl (by decide), getInterval_invalid_note_total "X" "C" (Or.inl (by decide))⟩

/-! ### Claim C8 -/

/-- Claim C8: building with capo `K` equals building with capo `0` followed by
the capo post-pass that empties the tag lists of frets numbered below `K`
(leaving `note`, `string`, `number` and `isHighlighted` untouched) and leaves
all other frets unchanged. -/
theorem getFrets_capo_is_post_filter (ctx : Ctx) (sequences : List Sequence)
    (tuningNotes : List String) (capo : Nat) (flipped : Bool) :
    getFrets ctx sequences tuningNotes capo flipped =
      (getFrets ctx sequences tuningNotes 0 flipped).map (capoTruncate capo) := by
  unfold getFrets
  cases hcore : getFretsCore ctx sequences tuningNotes flipped with
  | error e => rfl
  | ok g =>
    simp only [Except.map]
    have h0 : filterCapo g 0 = g := by
      have hfun : (fun fret : Fret =>
          { fret with sequences := if fret.number < 0 then [] else fret.sequences }) =
          fun fret => fret := by
        funext f
        simp
      simp only [filterCapo, hfun, List.map_id']
    rw [h0]
    have : filterCapo g capo = capoTruncate capo g := by
      have hfun : (fun fret : Fret =>
          { fret with sequences := if fret.number < capo then [] else fret.sequences }) =
          fun f : Fret => if f.number < capo then { f with sequences := [] } else f := by
        funext f
        by_cases hf : f.number < capo <;> simp [hf]
      simp only [filterCapo, capoTruncate, hfun]
    rw [this]

/-! ### Claim C9 -/

/-- Claim C9: when a sequence uses a named position (`position` neither `-1`
nor `0`) and its model's table defines that position's window `[lo, hi]`,
`shouldDisplayFret` answers true exactly on the translated window
`[lo + offset, hi + offset]`, read as a closed interval when `start < stop`
and as the wraparound union `fret ≥ start ∨ fret ≤ stop` otherwise; and the
window `[10, 2]` at offset `0` contains exactly the frets 0, 1, 2, 10, 11
among 0..11. -/
theorem shouldDisplayFret_position_window (ctx : Ctx) (fret : Int) (index : Nat)
    (seq : Sequence) (offs : List Int) (m : Model) (ps : List (Int × Int))
    (lo hi off : Int)
    (h1 : seq.position ≠ -1) (h2 : seq.position ≠ 0)
    (hm : ctx.models seq.model = some m) (hps : m.positions = some ps)
    (hrow : jsGet ps (seq.position - 1) = some (lo, hi))
    (hoff : offs.get? index = some off) :
    ((shouldDisplayFret ctx fret index seq offs = .ok true) ↔
      (if lo + off < hi + off then lo + off ≤ fret ∧ fret ≤ hi + off
       else lo + off ≤ fret ∨ fret ≤ hi + off)) ∧
    (List.range 12).filter (fun n => isInPosition (n : Int) (10, 2) 0) = [0, 1, 2, 10, 11] := by
  constructor
  · simp only [shouldDisplayFret, if_neg h1, if_neg h2, hm, hps, hrow, hoff]
    simp only [Except.ok.injEq, isInPosition]
    by_cases hlt : lo + off < hi + off <;> simp [hlt]
  · decide

/-- Witness for C9: a concrete registry whose model `m` has the single
position window `[10, 2]`, queried at fret 11 with offset 0. -/
theorem shouldDisplayFret_position_window_witness :
    ((1 : Int) ≠ -1 ∧ (1 : Int) ≠ 0 ∧
     ctx9.models "m" = some model9 ∧ model9.positions = some [(10, 2)] ∧
     jsGet [((10 : Int), (2 : Int))] ((1 : Int) - 1) = some (10, 2) ∧
     [(0 : Int)].get? 0 = some 0) ∧
    (((shouldDisplayFret ctx9 11 0 seq9 [0] = .ok true) ↔
       (if (10 : Int) + 0 < 2 + 0 then (10 : Int) + 0 ≤ 11 ∧ (11 : Int) ≤ 2 + 0
        else (10 : Int) + 0 ≤ 11 ∨ (11 : Int) ≤ 2 + 0)) ∧
     (List.range 12).filter (fun n => isInPosition (n : Int) (10, 2) 0) = [0, 1, 2, 10, 11]) :=
  ⟨⟨by decide, by decide, rfl, rfl, rfl, rfl⟩,
    shouldDisplayFret_position_window ctx9 11 0 seq9 [0] model9 [(10, 2)] 10 2 0
      (by decide) (by decide) rfl rfl rfl rfl⟩

/-! ### Claim C1 -/

/-- Counterexample for C1: with input `[seqDInter, seqCPlain]` (an intersected
sequence first), the intersected-last sort processes `seqCPlain` first, and
the tag it leaves on fret 0 of the C string records index 0 — its position in
the sorted processing order — although `seqCPlain` is the input sequence at
position 1 (input position 0 holds `seqDInter`, whose tonality D does not even
match the tagged fret's note C at interval 0).  The spec-order build tags the
same fret with index 1. -/
theorem getFrets_tag_index_sorted_order :
    tagsAt (getFrets ctxPlain [seqDInter, seqCPlain] ["C"] 0 false) 0 = [⟨0, 0⟩] ∧
    tagsAt (getFretsSpecOrder ctxPlain [seqDInter, seqCPlain] ["C"] 0 false) 0 = [⟨1, 0⟩] ∧
    ([seqDInter, seqCPlain].get? 0).map Sequence.tonality = some "D" ∧
    ([seqDInter, seqCPlain].get? 1).map Sequence.tonality = some "C" ∧
    tagsAt (getFrets ctxPlain [seqDInter, seqCPlain] ["C"] 0 false) 0 ≠
      tagsAt (getFretsSpecOrder ctxPlain [seqDInter, seqCPlain] ["C"] 0 false) 0 := by
  refine ⟨by decide, by decide, rfl, rfl, by decide⟩

/-- Claim C1 as amended: each tag's `index` is the tagging sequence's position
in the sorted (intersected-last) processing order; this coincides with the
input order — and the build agrees with the spec-order build — whenever no
input sequence is intersected (more generally, whenever sorting does not
reorder the input). -/
theorem getFrets_tag_index_input_order_when_unsorted (ctx : Ctx)
    (sequences : List Sequence) (tuningNotes : List String) (capo : Nat) (flipped : Bool)
    (h : ∀ s ∈ sequences, s.isIntersected = false) :
    getFrets ctx sequences tuningNotes capo flipped =
      getFretsSpecOrder ctx sequences tuningNotes capo flipped := by
  have h1 : sequences.filter (fun s => !s.isIntersected) = sequences := by
    rw [List.filter_eq_self]
    intro a ha
    simp [h a ha]
  have h2 : sequences.filter (fun s => s.isIntersected) = [] := by
    rw [List.filter_eq_nil_iff]
    intro a ha
    simp [h a ha]
  have h3 : sequences.enum.filter (fun p => !p.2.isIntersected) = sequences.enum := by
    rw [List.filter_eq_self]
    intro a ha
    simp [h a.2 (snd_mem_of_mem_enum ha)]
  have h4 : sequences.enum.filter (fun p => p.2.isIntersected) = [] := by
    rw [List.filter_eq_nil_iff]
    intro a ha
    simp [h a.2 (snd_mem_of_mem_enum ha)]
  have e1 : sortSequences sequences = sequences := by
    unfold sortSequences
    rw [h1, h2, List.append_nil]
  have e2 : sortEnumSequences sequences.enum = sequences.enum := by
    unfold sortEnumSequences
    rw [h3, h4, List.append_nil]
  unfold getFrets getFretsSpecOrder getFretsCore getFretsCoreSpecOrder
  rw [e1, e2]

/-- Witness for the amended C1: a single non-intersected sequence. -/
theorem getFrets_tag_index_input_order_when_unsorted_witness :
    (∀ s ∈ [seqCPlain], s.isIntersected = false) ∧
    getFrets ctxPlain [seqCPlain] ["C"] 0 false =
      getFretsSpecOrder ctxPlain [seqCPlain] ["C"] 0 false :=
  ⟨by decide,
    getFrets_tag_index_input_order_when_unsorted ctxPlain [seqCPlain] ["C"] 0 false
      (by decide)⟩

/-! ### Claim C2 -/

/-- Evaluation of the C2 code bug: `positionOffsets` is computed in input
order but indexed with the sorted-order loop index.  With input
`[seqDInter, seq9]` over a C string, `seq9` (tonality C, shown in position 1,
window `[11, 12]`) is processed first with sorted index 0, so its window is
translated by `positionOffsets[0] = getInterval C D = 2` — the offset
precomputed for `seqDInter` — instead of its own offset
`getInterval C C = 0`.  Fret 12 lies in `seq9`'s own translated window but
not in the wrongly translated one, so the built grid leaves fret 12 untagged
while the spec-order build tags it. -/
theorem getFrets_position_offset_wrong_sequence :
    tagsAt (getFrets ctxW [seqDInter, seq9] ["C"] 0 false) 12 = [] ∧
    tagsAt (getFretsSpecOrder ctxW [seqDInter, seq9] ["C"] 0 false) 12 = [⟨1, 0⟩] ∧
    isInPosition 12 (11, 12) (getInterval "C" seq9.tonality) = true ∧
    isInPosition 12 (11, 12) (getInterval "C" seqDInter.tonality) = false := by
  refine ⟨by decide, by decide, rfl, rfl⟩

/-! ### Claim C3 -/

/-- Counterexample for C3: the non-intersected `seqCBounded` marks only fret 0
(its custom window suppresses the octave mate 12), then the intersected
`seqCInter` passes the guard on the target fret 0 — which does carry a tag —
and marks both fret 0 and its octave duplicate 12, although fret 12 carried
zero tags (from anyone, in particular from non-intersected sequences) at that
moment.  Fret 12's only tag is the intersected sequence's. -/
theorem intersected_tag_on_untagged_octave_fret :
    tagsAt (getFrets ctxPlain [seqCBounded, seqCInter] ["C"] 0 false) 12 = [⟨1, 0⟩] ∧
    ([seqCBounded, seqCInter].get? 1).map Sequence.isIntersected = some true ∧
    ([seqCBounded, seqCInter].get? 0).map Sequence.isIntersected = some false ∧
    tagsAt (getFrets ctxPlain [seqCBounded, seqCInter] ["C"] 0 false) 0 =
      [⟨0, 0⟩, ⟨1, 0⟩] := by
  refine ⟨by decide, rfl, rfl, by decide⟩

/-- Claim C3 as amended: the intersected guard examines only the target fret
`rootFret + interval` and counts tags from any previously processed sequence:
the mark is skipped (grid unchanged) iff that single fret's tag list is empty,
it proceeds to the usual pair marking otherwise, and it throws when the target
fret does not exist; the octave-duplicate fret is never examined by the guard
(and can therefore receive an intersected tag while untagged, as the
counterexample shows). -/
theorem applyInterval_intersected_guard (ctx : Ctx) (offs : List Int) (index : Nat)
    (seq : Sequence) (rootFret : Int) (fs : List Fret) (interval : Int)
    (hseq : seq.isIntersected = true) :
    (∀ f₀, jsGet fs (rootFret + interval) = some f₀ → f₀.sequences = [] →
      applyInterval ctx offs index seq rootFret fs interval = .ok fs) ∧
    (∀ f₀, jsGet fs (rootFret + interval) = some f₀ → f₀.sequences ≠ [] →
      applyInterval ctx offs index seq rootFret fs interval =
        applyToPair ctx offs index seq interval fs (rootFret + interval)) ∧
    (jsGet fs (rootFret + interval) = none →
      applyInterval ctx offs index seq rootFret fs interval = .error ()) := by
  refine ⟨?_, ?_, ?_⟩
  · intro f₀ hget hempty
    simp only [applyInterval, hseq, if_true, hget, hempty]
    simp
  · intro f₀ hget hne
    simp only [applyInterval, hseq, if_true, hget]
    rw [if_neg (by simpa [List.length_eq_zero] using hne)]
  · intro hget
    simp only [applyInterval, hseq, if_true, hget]

/-- Witness for the amended C3: the guard at work on a fresh (untagged) C
string for the intersected sequence `seqCInter`. -/
theorem applyInterval_intersected_guard_witness :
    seqCInter.isIntersected = true ∧
    ((∀ f₀, jsGet (mkFrets "C" 0) ((0 : Int) + 0) = some f₀ → f₀.sequences = [] →
      applyInterval ctxPlain [0] 0 seqCInter 0 (mkFrets "C" 0) 0 = .ok (mkFrets "C" 0)) ∧
    (∀ f₀, jsGet (mkFrets "C" 0) ((0 : Int) + 0) = some f₀ → f₀.sequences ≠ [] →
      applyInterval ctxPlain [0] 0 seqCInter 0 (mkFrets "C" 0) 0 =
        applyToPair ctxPlain [0] 0 seqCInter 0 (mkFrets "C" 0) ((0 : Int) + 0)) ∧
    (jsGet (mkFrets "C" 0) ((0 : Int) + 0) = none →
      applyInterval ctxPlain [0] 0 seqCInter 0 (mkFrets "C" 0) 0 = .error ())) :=
  ⟨rfl, applyInterval_intersected_guard ctxPlain [0] 0 seqCInter 0 (mkFrets "C" 0) 0 rfl⟩

/-! ### Machinery: `Except` folds and list updates -/

theorem except_bind_ok {β γ : Type} (b : β) (f : β → Except Unit γ) :
    ((Except.ok b : Except Unit β) >>= f) = f b := rfl

theorem except_bind_error {β γ : Type} (e : Unit) (f : β → Except Unit γ) :
    ((Except.error e : Except Unit β) >>= f) = Except.error e := rfl

theorem foldlM_ok_invariant {α β : Type} (P : β → Prop) (step : β → α → Except Unit β) :
    ∀ (l : List α) (b : β), P b →
      (∀ b₁ a, a ∈ l → P b₁ → ∀ b₂, step b₁ a = .ok b₂ → P b₂) →
      ∀ b', l.foldlM step b = .ok b' → P b' := by
  intro l
  induction l with
  | nil =>
    intro b hb _ b' h
    simp only [List.foldlM_nil] at h
    cases h
    exact hb
  | cons a as ih =>
    intro b hb hstep b' h
    rw [List.foldlM_cons] at h
    cases hsa : step b a with
    | error e =>
      rw [hsa, except_bind_error] at h
      cases h
    | ok b₁ =>
      rw [hsa, except_bind_ok] at h
      have hb₁ : P b₁ := hstep b a (List.mem_cons_self _ _) hb b₁ hsa
      exact ih b₁ hb₁ (fun b₂ a' ha' => hstep b₂ a' (List.mem_cons_of_mem _ ha')) b' h

theorem foldlM_ok_exists {α β : Type} (P : β → Prop) (step : β → α → Except Unit β) :
    ∀ (l : List α) (b : β), P b →
      (∀ b₁ a, a ∈ l → P b₁ → ∃ b₂, step b₁ a = .ok b₂ ∧ P b₂) →
      ∃ b', l.foldlM step b = .ok b' ∧ P b' := by
  intro l
  induction l with
  | nil =>
    intro b hb _
    exact ⟨b, rfl, hb⟩
  | cons a as ih =>
    intro b hb hstep
    obtain ⟨b₁, hsa, hb₁⟩ := hstep b a (List.mem_cons_self _ _) hb
    obtain ⟨b', hfold, hb'⟩ :=
      ih b₁ hb₁ (fun b₂ a' ha' => hstep b₂ a' (List.mem_cons_of_mem _ ha'))
    exact ⟨b', by rw [List.foldlM_cons, hsa, except_bind_ok]; exact hfold, hb'⟩

theorem foldlM_cons_error {α β : Type} (step : β → α → Except Unit β) (l : List α)
    (b : β) (a : α) (e : Unit) (h : step b a = .error e) :
    (a :: l).foldlM step b = .error e := by
  rw [List.foldlM_cons, h, except_bind_error]

theorem jsGet_eq_some {α : Type} {l : List α} {i : Int} {a : α} :
    jsGet l i = some a ↔ 0 ≤ i ∧ l.get? i.toNat = some a := by
  unfold jsGet
  by_cases hi : i < 0
  · rw [if_pos hi]
    constructor
    · intro h
      cases h
    · intro h
      exact absurd h.1 (by omega)
  · rw [if_neg hi]
    constructor
    · intro h
      exact ⟨by omega, h⟩
    · intro h
      exact h.2

theorem jsGet_of_lt {α : Type} {l : List α} {i : Int} (h0 : 0 ≤ i)
    (h1 : i.toNat < l.length) : ∃ a, jsGet l i = some a := by
  unfold jsGet
  rw [if_neg (by omega)]
  exact ⟨_, List.get?_eq_get h1⟩

theorem list_set_same {α : Type} : ∀ {l : List α} {n : Nat} {a : α},
    l.get? n = some a → l.set n a = l := by
  intro l
  induction l with
  | nil =>
    intro n a h
    cases h
  | cons x xs ih =>
    intro n a h
    cases n with
    | zero =>
      cases h
      rfl
    | succ m =>
      simp only [List.get?] at h
      simp only [List.set]
      rw [ih h]

theorem get?_some_lt {α : Type} : ∀ {l : List α} {n : Nat} {a : α},
    l.get? n = some a → n < l.length := by
  intro l
  induction l with
  | nil =>
    intro n a h
    cases h
  | cons x xs ih =>
    intro n a h
    cases n with
    | zero =>
      simp [List.length_cons]
    | succ m =>
      simp only [List.get?] at h
      have := ih h
      simp only [List.length_cons]
      omega

theorem get?_set_self {α : Type} : ∀ {l : List α} {n : Nat} {a : α},
    n < l.length → (l.set n a).get? n = some a := by
  intro l
  induction l with
  | nil =>
    intro n a h
    exact absurd h (Nat.not_lt_zero n)
  | cons x xs ih =>
    intro n a h
    cases n with
    | zero => rfl
    | succ m =>
      simp only [List.set, List.get?]
      exact ih (by simpa using h)

theorem get?_set_other {α : Type} : ∀ {l : List α} {m n : Nat} {a : α},
    m ≠ n → (l.set m a).get? n = l.get? n := by
  intro l
  induction l with
  | nil =>
    intro m n a _
    rfl
  | cons x xs ih =>
    intro m n a h
    cases m with
    | zero =>
      cases n with
      | zero => exact absurd rfl h
      | succ k => rfl
    | succ m' =>
      cases n with
      | zero => rfl
      | succ k =>
        simp only [List.set, List.get?]
        exact ih (by omega)

theorem get?_map_own {α β : Type} (f : α → β) :
    ∀ (l : List α) (n : Nat), (l.map f).get? n = (l.get? n).map f := by
  intro l
  induction l with
  | nil =>
    intro n
    rfl
  | cons x xs ih =>
    intro n
    cases n with
    | zero => rfl
    | succ m =>
      simp only [List.map, List.get?]
      exact ih m

/-! ### Machinery: the effect of one `markPair` step -/

theorem markPair_ok_cases {ctx : Ctx} {offs : List Int} {index : Nat} {seq : Sequence}
    {interval : Int} {fs : List Fret} {fr : Int} {fs' : List Fret}
    (h : markPair ctx offs index seq interval fs fr = .ok fs') :
    (shouldDisplayFret ctx fr index seq offs = .ok false ∧ fs' = fs) ∨
    (shouldDisplayFret ctx fr index seq offs = .ok true ∧ 0 ≤ fr ∧
      ∃ f, fs.get? fr.toNat = some f ∧
        fs' = fs.set fr.toNat (pushTag f index interval seq.highlightedInterval)) := by
  unfold markPair at h
  cases hd : shouldDisplayFret ctx fr index seq offs with
  | error e =>
    rw [hd, except_bind_error] at h
    cases h
  | ok b =>
    rw [hd, except_bind_ok] at h
    cases b with
    | false =>
      left
      rw [if_neg (by simp)] at h
      cases h
      exact ⟨rfl, rfl⟩
    | true =>
      right
      rw [if_pos rfl] at h
      cases hget : jsGet fs fr with
      | none =>
        rw [hget] at h
        cases h
      | some f =>
        rw [hget] at h
        cases h
        have hj := jsGet_eq_some.mp hget
        exact ⟨rfl, hj.1, f, hj.2, rfl⟩

theorem markPair_length {ctx : Ctx} {offs : List Int} {index : Nat} {seq : Sequence}
    {interval : Int} {fs : List Fret} {fr : Int} {fs' : List Fret}
    (h : markPair ctx offs index seq interval fs fr = .ok fs') :
    fs'.length = fs.length := by
  rcases markPair_ok_cases h with ⟨_, rfl⟩ | ⟨_, _, f, _, rfl⟩
  · rfl
  · exact List.length_set fs _ _

theorem markPair_skel {ctx : Ctx} {offs : List Int} {index : Nat} {seq : Sequence}
    {interval : Int} {fs : List Fret} {fr : Int} {fs' : List Fret}
    (h : markPair ctx offs index seq interval fs fr = .ok fs') :
    fs'.map skel = fs.map skel := by
  rcases markPair_ok_cases h with ⟨_, rfl⟩ | ⟨_, _, f, hget, rfl⟩
  · rfl
  · rw [List.map_set]
    apply list_set_same
    rw [get?_map_own, hget]
    rfl

theorem markPair_note_map {ctx : Ctx} {offs : List Int} {index : Nat} {seq : Sequence}
    {interval : Int} {fs : List Fret} {fr : Int} {fs' : List Fret}
    (h : markPair ctx offs index seq interval fs fr = .ok fs') :
    fs'.map Fret.note = fs.map Fret.note := by
  rcases markPair_ok_cases h with ⟨_, rfl⟩ | ⟨_, _, f, hget, rfl⟩
  · rfl
  · rw [List.map_set]
    apply list_set_same
    rw [get?_map_own, hget]
    rfl

theorem tagAt_mono_markPair {ctx : Ctx} {offs : List Int} {index : Nat} {seq : Sequence}
    {interval : Int} {fs : List Fret} {fr : Int} {fs' : List Fret}
    (h : markPair ctx offs index seq interval fs fr = .ok fs')
    {k : Nat} {tag : SeqTag} (ht : tagAt fs k tag) : tagAt fs' k tag := by
  obtain ⟨f, hget, hmem⟩ := ht
  rcases markPair_ok_cases h with ⟨_, rfl⟩ | ⟨_, hfr, f₀, hget₀, rfl⟩
  · exact ⟨f, hget, hmem⟩
  · by_cases hk : fr.toNat = k
    · subst hk
      rw [hget₀] at hget
      cases hget
      refine ⟨pushTag f index interval seq.highlightedInterval, ?_, ?_⟩
      · exact get?_set_self (get?_some_lt hget₀)
      · exact List.mem_append_left _ hmem
    · exact ⟨f, by rw [get?_set_other hk]; exact hget, hmem⟩

theorem tagAt_new_markPair {ctx : Ctx} {offs : List Int} {index : Nat} {seq : Sequence}
    {interval : Int} {fs : List Fret} {fr : Int} {fs' : List Fret}
    (h : markPair ctx offs index seq interval fs fr = .ok fs')
    {k : Nat} {tag : SeqTag} (ht : tagAt fs' k tag) :
    tagAt fs k tag ∨
      (tag = ⟨index, interval⟩ ∧ (k : Int) = fr ∧
        shouldDisplayFret ctx fr index seq offs = .ok true) := by
  obtain ⟨f, hget, hmem⟩ := ht
  rcases markPair_ok_cases h with ⟨_, rfl⟩ | ⟨hd, hfr, f₀, hget₀, rfl⟩
  · exact Or.inl ⟨f, hget, hmem⟩
  · by_cases hk : fr.toNat = k
    · subst hk
      rw [get?_set_self (get?_some_lt hget₀)] at hget
      cases hget
      rcases List.mem_append.mp hmem with hold | hnew
      · exact Or.inl ⟨f₀, hget₀, hold⟩
      · right
        refine ⟨by simpa using hnew, ?_, hd⟩
        omega
    · rw [get?_set_other hk] at hget
      exact Or.inl ⟨f, hget, hmem⟩

theorem markPair_pushes {ctx : Ctx} {offs : List Int} {index : Nat} {seq : Sequence}
    {interval : Int} {fs : List Fret} {fr : Int} {fs' : List Fret}
    (h : markPair ctx offs index seq interval fs fr = .ok fs')
    (hd : shouldDisplayFret ctx fr index seq offs = .ok true) :
    tagAt fs' fr.toNat ⟨index, interval⟩ := by
  rcases markPair_ok_cases h with ⟨hd', _⟩ | ⟨_, hfr, f₀, hget₀, rfl⟩
  · rw [hd] at hd'
    cases hd'
  · refine ⟨pushTag f₀ index interval seq.highlightedInterval, ?_, ?_⟩
    · exact get?_set_self (get?_some_lt hget₀)
    · exact List.mem_append_right _ (List.mem_singleton.mpr rfl)

/-! ### Machinery: the pair loop and the octave-pairing invariant -/

theorem applyToPair_ok_elim {ctx : Ctx} {offs : List Int} {index : Nat} {seq : Sequence}
    {interval : Int} {fs : List Fret} {t : Int} {fs₂ : List Fret}
    (h : applyToPair ctx offs index seq interval fs t = .ok fs₂) :
    ∃ fs₁, markPair ctx offs index seq interval fs t = .ok fs₁ ∧
      markPair ctx offs index seq interval fs₁ ((t + 12).tmod (NB_FRETS : Int)) = .ok fs₂ := by
  unfold applyToPair at h
  rw [List.foldlM_cons] at h
  cases h1 : markPair ctx offs index seq interval fs t with
  | error e =>
    rw [h1, except_bind_error] at h
    cases h
  | ok fs₁ =>
    rw [h1, except_bind_ok, List.foldlM_cons] at h
    cases h2 : markPair ctx offs index seq interval fs₁ ((t + 12).tmod (NB_FRETS : Int)) with
    | error e =>
      rw [h2, except_bind_error] at h
      cases h
    | ok fs₂' =>
      rw [h2, except_bind_ok, List.foldlM_nil] at h
      cases h
      exact ⟨fs₁, rfl, h2⟩

theorem NB_FRETS_int : ((NB_FRETS : Nat) : Int) = 24 := rfl

theorem mate_int {k : Nat} (hk : k < 24) : ((k : Int) + 12).tmod 24 = ((mate k : Nat) : Int) := by
  unfold mate
  rw [Int.tmod_eq_emod (by omega) (by omega)]
  split <;> omega

theorem mate_lt {k : Nat} (hk : k < 24) : mate k < 24 := by
  unfold mate
  split <;> omega

theorem mate_mate {k : Nat} (hk : k < 24) : mate (mate k) = k := by
  simp only [mate]
  split <;> split <;> omega

theorem applyToPair_inv {ctx : Ctx} {offs : List Int} {pairs : List (Nat × Sequence)}
    {base : List Fret} {index : Nat} {seq : Sequence} {interval : Int}
    {fs : List Fret} {t : Int} {fs' : List Fret}
    (hmem : (index, seq) ∈ pairs)
    (ht0 : 0 ≤ t) (ht1 : t < 24)
    (hinv : MarkInv ctx offs pairs base fs)
    (h : applyToPair ctx offs index seq interval fs t = .ok fs') :
    MarkInv ctx offs pairs base fs' := by
  obtain ⟨hl, hn, hpair⟩ := hinv
  obtain ⟨fs₁, h1, h2⟩ := applyToPair_ok_elim h
  have htN : t.toNat < 24 := by omega
  have htc : ((t.toNat : Nat) : Int) = t := by omega
  have hpmate : (t + 12).tmod ((NB_FRETS : Nat) : Int) = ((mate t.toNat : Nat) : Int) := by
    rw [NB_FRETS_int, ← htc]
    exact mate_int htN
  refine ⟨?_, ?_, ?_⟩
  · rw [markPair_length h2, markPair_length h1, hl]
  · rw [markPair_note_map h2, markPair_note_map h1, hn]
  · intro k hk tag htag
    rcases tagAt_new_markPair h2 htag with htag1 | ⟨rfl, hkp, hd2⟩
    · rcases tagAt_new_markPair h1 htag1 with htag0 | ⟨rfl, hkt, hd1⟩
      · rcases hpair k hk tag htag0 with hmate | hsupp
        · exact Or.inl (tagAt_mono_markPair h2 (tagAt_mono_markPair h1 hmate))
        · exact Or.inr hsupp
      · -- the tag was pushed at the target fret `t` by the first step
        have hkt' : k = t.toNat := by omega
        have hm : ((mate k : Nat) : Int) = (t + 12).tmod ((NB_FRETS : Nat) : Int) := by
          rw [hkt', hpmate]
        rcases markPair_ok_cases h2 with ⟨hdf, _⟩ | ⟨hdt, hp0c, f₂, hget₂, hset₂⟩
        · right
          refine ⟨(index, seq), hmem, rfl, ?_⟩
          rw [hm, hdf]
          simp
        · left
          have hpush := markPair_pushes h2 hdt
          have hpn : ((t + 12).tmod ((NB_FRETS : Nat) : Int)).toNat = mate k := by
            rw [hpmate, hkt']
            omega
          rw [← hpn]
          exact hpush
    · -- the tag was pushed at the octave mate by the second step
      have hp0 : (0 : Int) ≤ (t + 12).tmod ((NB_FRETS : Nat) : Int) := by
        rw [hpmate]
        omega
      have hkp' : k = mate t.toNat := by omega
      have hmk : mate k = t.toNat := by
        rw [hkp']
        exact mate_mate htN
      rcases markPair_ok_cases h1 with ⟨hdf1, _⟩ | ⟨hdt1, _, f₁, hget₁, hset₁⟩
      · right
        refine ⟨(index, seq), hmem, rfl, ?_⟩
        rw [hmk, htc, hdf1]
        simp
      · left
        have hpush := markPair_pushes h1 hdt1
        have hgoal : tagAt fs₁ (mate k) ⟨index, interval⟩ := by
          rw [hmk]
          exact hpush
        exact tagAt_mono_markPair h2 hgoal

theorem applyInterval_inv {ctx : Ctx} {offs : List Int} {pairs : List (Nat × Sequence)}
    {base : List Fret} {index : Nat} {seq : Sequence} {rootFret : Int}
    {fs : List Fret} {interval : Int} {fs' : List Fret}
    (hmem : (index, seq) ∈ pairs)
    (ht0 : 0 ≤ rootFret + interval) (ht1 : rootFret + interval < 24)
    (hinv : MarkInv ctx offs pairs base fs)
    (h : applyInterval ctx offs index seq rootFret fs interval = .ok fs') :
    MarkInv ctx offs pairs base fs' := by
  unfold applyInterval at h
  cases hI : seq.isIntersected with
  | false =>
    rw [hI] at h
    rw [if_neg (by simp)] at h
    exact applyToPair_inv hmem ht0 ht1 hinv h
  | true =>
    rw [hI] at h
    rw [if_pos rfl] at h
    cases hg : jsGet fs (rootFret + interval) with
    | none =>
      rw [hg] at h
      cases h
    | some f =>
      rw [hg] at h
      have h' : (if f.sequences.length = 0 then (Except.ok fs : Except Unit (List Fret))
          else applyToPair ctx offs index seq interval fs (rootFret + interval)) = .ok fs' := h
      by_cases hz : f.sequences.length = 0
      · rw [if_pos hz] at h'
        cases h'
        exact hinv
      · rw [if_neg hz] at h'
        exact applyToPair_inv hmem ht0 ht1 hinv h'

/-! ### Machinery: the initial fret row and root-fret lookup -/

theorem jsGet_natCast {α : Type} (l : List α) (m : Nat) : jsGet l (m : Int) = l.get? m := by
  unfold jsGet
  rw [if_neg (by omega), Int.toNat_natCast]

theorem mkFrets_length (o : String) (s : Nat) : (mkFrets o s).length = 24 := by
  simp [mkFrets, NB_FRETS]

theorem mkFrets_get? (o : String) (s : Nat) {k : Nat} (hk : k < 24) :
    (mkFrets o s).get? k = some (mkFret o s k) := by
  unfold mkFrets
  rw [get?_map_own, List.get?_eq_getElem?, List.getElem?_range (by simpa [NB_FRETS] using hk)]
  rfl

theorem mkFret_note {o : String} (ho : o ∈ notes) (s k : Nat) :
    (mkFret o s k).note = noteAt o k := by
  have h0 := (jsIndexOf_mem_bounds ho).1
  show (match jsGet notes ((jsIndexOf notes o + (k : Int)).tmod ((notes.length : Nat) : Int)) with
      | some n => n
      | none => "undefined") = noteAt o k
  have hidx : (jsIndexOf notes o + (k : Int)).tmod ((notes.length : Nat) : Int) =
      ((((jsIndexOf notes o).toNat + k) % 12 : Nat) : Int) := by
    rw [show (((notes.length : Nat)) : Int) = 12 from rfl]
    rw [Int.tmod_eq_emod (by omega) (by omega)]
    omega
  rw [hidx, jsGet_natCast]
  rfl

theorem noteAt_mem (o : String) (k : Nat) : noteAt o k ∈ notes := by
  unfold noteAt
  cases hg : notes.get? (((jsIndexOf notes o).toNat + k) % 12) with
  | some n =>
    exact List.get?_mem hg
  | none =>
    have hlt : (((jsIndexOf notes o).toNat + k) % 12) < notes.length := by
      have h12 : notes.length = 12 := rfl
      omega
    rw [List.get?_eq_get hlt] at hg
    cases hg

theorem root_exists {o t : String} (ho : o ∈ notes) (ht : t ∈ notes) :
    ∃ k : Nat, k < 12 ∧ noteAt o k = t := by
  have hio := jsIndexOf_mem_bounds ho
  have hit := jsIndexOf_mem_bounds ht
  have hlen : (notes.length : Int) = 12 := rfl
  refine ⟨((jsIndexOf notes t).toNat + 12 - (jsIndexOf notes o).toNat) % 12, by omega, ?_⟩
  unfold noteAt
  have harith : ((jsIndexOf notes o).toNat +
      ((jsIndexOf notes t).toNat + 12 - (jsIndexOf notes o).toNat) % 12) % 12 =
      (jsIndexOf notes t).toNat := by omega
  rw [harith, jsIndexOf_get? ht]

theorem jsFindIndex_none {α : Type} {p : α → Bool} :
    ∀ {l : List α}, (∀ a ∈ l, p a = false) → jsFindIndex l p = -1 := by
  intro l
  induction l with
  | nil =>
    intro _
    rfl
  | cons x xs ih =>
    intro h
    simp only [jsFindIndex]
    rw [h x (List.mem_cons_self _ _), if_neg (by simp)]
    rw [ih (fun a ha => h a (List.mem_cons_of_mem _ ha))]
    simp

theorem jsFindIndex_bounds {α : Type} {p : α → Bool} :
    ∀ {l : List α} {n : Nat}, (∃ k a, k < n ∧ l.get? k = some a ∧ p a = true) →
      0 ≤ jsFindIndex l p ∧ jsFindIndex l p < (n : Int) := by
  intro l
  induction l with
  | nil =>
    intro n ⟨k, a, _, hget, _⟩
    cases hget
  | cons x xs ih =>
    intro n ⟨k, a, hk, hget, hpa⟩
    simp only [jsFindIndex]
    by_cases hpx : p x = true
    · rw [if_pos hpx]
      constructor
      · omega
      · omega
    · rw [if_neg hpx]
      cases k with
      | zero =>
        cases hget
        exact absurd hpa hpx
      | succ k' =>
        have hb := ih (n := n - 1) ⟨k', a, by omega, hget, hpa⟩
        rw [if_neg (by omega)]
        constructor
        · omega
        · omega

/-! ### Machinery: the invariant through a whole marking pass -/

theorem markSequence_inv {ctx : Ctx} {offs : List Int} {pairs : List (Nat × Sequence)}
    {o : String} {sn : Nat} {index : Nat} {seq : Sequence} {fs fs' : List Fret}
    (ho : o ∈ notes) (hton : seq.tonality ∈ notes)
    (hmem : (index, seq) ∈ pairs)
    (hints : ∀ i ∈ ctx.intervalsForSequence seq, 0 ≤ i ∧ i ≤ 12)
    (hinv : MarkInv ctx offs pairs (mkFrets o sn) fs)
    (h : markSequence ctx offs fs index seq = .ok fs') :
    MarkInv ctx offs pairs (mkFrets o sn) fs' := by
  unfold markSequence at h
  obtain ⟨k₀, hk₀, hnote⟩ := root_exists ho hton
  obtain ⟨hl, hn, hpair⟩ := hinv
  have hbget : (mkFrets o sn).get? k₀ = some (mkFret o sn k₀) := mkFrets_get? o sn (by omega)
  have hfs : ∃ a, fs.get? k₀ = some a ∧ a.note = seq.tonality := by
    have hmapeq : (fs.map Fret.note).get? k₀ = ((mkFrets o sn).map Fret.note).get? k₀ := by
      rw [hn]
    rw [get?_map_own, get?_map_own, hbget] at hmapeq
    cases hg : fs.get? k₀ with
    | none =>
      rw [hg] at hmapeq
      cases hmapeq
    | some a =>
      rw [hg] at hmapeq
      refine ⟨a, rfl, ?_⟩
      have hna : a.note = (mkFret o sn k₀).note := by simpa using hmapeq
      rw [hna, mkFret_note ho, hnote]
  obtain ⟨a, hget, hanote⟩ := hfs
  have hroot : 0 ≤ jsFindIndex fs (fun f => f.note = seq.tonality) ∧
      jsFindIndex fs (fun f => f.note = seq.tonality) < ((12 : Nat) : Int) := by
    exact jsFindIndex_bounds ⟨k₀, a, hk₀, hget, by simp [hanote]⟩
  refine foldlM_ok_invariant (MarkInv ctx offs pairs (mkFrets o sn)) _ _ fs
    ⟨hl, hn, hpair⟩ ?_ fs' h
  intro b₁ i hi hb₁ b₂ hstep
  have hib : 0 ≤ i ∧ i ≤ 12 := by
    rcases List.mem_cons.mp hi with rfl | hi'
    · exact ⟨le_refl 0, by omega⟩
    · exact hints i hi'
  exact applyInterval_inv hmem (by omega) (by omega) hb₁ hstep

theorem markAllWith_inv {ctx : Ctx} {offs : List Int} {pairs : List (Nat × Sequence)}
    {o : String} {sn : Nat} {fs' : List Fret}
    (ho : o ∈ notes)
    (hpairs : ∀ p ∈ pairs, p.2.tonality ∈ notes ∧
      ∀ i ∈ ctx.intervalsForSequence p.2, 0 ≤ i ∧ i ≤ 12)
    (h : markAllWith ctx offs pairs (mkFrets o sn) = .ok fs') :
    MarkInv ctx offs pairs (mkFrets o sn) fs' := by
  unfold markAllWith at h
  refine foldlM_ok_invariant (MarkInv ctx offs pairs (mkFrets o sn)) _ _ _ ?_ ?_ fs' h
  · refine ⟨rfl, rfl, ?_⟩
    intro k hk tag htag
    exfalso
    obtain ⟨f, hget, hmem⟩ := htag
    rw [mkFrets_get? o sn hk] at hget
    cases hget
    cases hmem
  · intro b₁ p hp hb₁ b₂ hstep
    have hps := hpairs p hp
    exact markSequence_inv ho hps.1 (by simpa using hp) hps.2 hb₁ hstep

/-! ### Claim C4 -/

theorem applyInterval_writes_pair {ctx : Ctx} {offs : List Int} {index : Nat}
    {seq : Sequence} {rootFret interval : Int} {fs fs' : List Fret}
    (hni : seq.isIntersected = false)
    (h : applyInterval ctx offs index seq rootFret fs interval = .ok fs')
    (hd1 : shouldDisplayFret ctx (rootFret + interval) index seq offs = .ok true)
    (hd2 : shouldDisplayFret ctx ((rootFret + interval + 12).tmod ((NB_FRETS : Nat) : Int))
      index seq offs = .ok true) :
    tagAt fs' (rootFret + interval).toNat ⟨index, interval⟩ ∧
    tagAt fs' ((rootFret + interval + 12).tmod ((NB_FRETS : Nat) : Int)).toNat
      ⟨index, interval⟩ := by
  unfold applyInterval at h
  rw [hni] at h
  rw [if_neg (by simp)] at h
  obtain ⟨fs₁, h1, h2⟩ := applyToPair_ok_elim h
  exact ⟨tagAt_mono_markPair h2 (markPair_pushes h1 hd1), markPair_pushes h2 hd2⟩

/-- Claim C4: an applied interval that passes the guard writes its tag to the
target fret `rootFret + interval` and to the octave mate
`(rootFret + interval + 12) mod NB_FRETS` — each of the two suppressible only
by its own position-window check — and consequently, on a marked string whose
open note and sequence tonalities are chromatic and whose generated intervals
are octave steps, every tag on a fret `f < NB_FRETS - 12` also sits on fret
`f + 12` unless the position filter suppressed the mate. -/
theorem octave_duplication :
    (∀ (ctx : Ctx) (offs : List Int) (index : Nat) (seq : Sequence)
        (rootFret interval : Int) (fs fs' : List Fret),
      seq.isIntersected = false →
      applyInterval ctx offs index seq rootFret fs interval = .ok fs' →
      shouldDisplayFret ctx (rootFret + interval) index seq offs = .ok true →
      shouldDisplayFret ctx ((rootFret + interval + 12).tmod ((NB_FRETS : Nat) : Int))
        index seq offs = .ok true →
      tagAt fs' (rootFret + interval).toNat ⟨index, interval⟩ ∧
        tagAt fs' ((rootFret + interval + 12).tmod ((NB_FRETS : Nat) : Int)).toNat
          ⟨index, interval⟩) ∧
    (∀ (ctx : Ctx) (offs : List Int) (pairs : List (Nat × Sequence)) (o : String)
        (sn : Nat) (fs : List Fret),
      o ∈ notes →
      (∀ p ∈ pairs, p.2.tonality ∈ notes ∧
        ∀ i ∈ ctx.intervalsForSequence p.2, 0 ≤ i ∧ i ≤ 12) →
      markAllWith ctx offs pairs (mkFrets o sn) = .ok fs →
      ∀ f : Nat, f < NB_FRETS - 12 → ∀ tag, tagAt fs f tag →
        tagAt fs (f + 12) tag ∨ SuppressedAt ctx offs pairs tag (f + 12)) := by
  constructor
  · intro ctx offs index seq rootFret interval fs fs' hni h hd1 hd2
    exact applyInterval_writes_pair hni h hd1 hd2
  · intro ctx offs pairs o sn fs ho hpairs h f hf tag htag
    have hinv := markAllWith_inv ho hpairs h
    have hf12 : f < 12 := by simpa [NB_FRETS] using hf
    have hmf : mate f = f + 12 := by
      unfold mate
      rw [if_pos hf12]
    have := hinv.2.2 f (by omega) tag htag
    rw [hmf] at this
    exact this

/-- Witness for C4: one non-intersected C-major-root sequence marked on a C
string; the root tag lands on fret 0 and on its octave mate fret 12, and the
grid-level pairing applies at fret 0. -/
theorem octave_duplication_witness :
    ("C" ∈ notes ∧
     (∀ p ∈ c4Pairs, p.2.tonality ∈ notes ∧
       ∀ i ∈ ctxPlain.intervalsForSequence p.2, 0 ≤ i ∧ i ≤ 12) ∧
     markAllWith ctxPlain [0] c4Pairs (mkFrets "C" 0) = .ok c4Grid ∧
     tagAt c4Grid 0 ⟨0, 0⟩ ∧
     (tagAt c4Grid (0 + 12) ⟨0, 0⟩ ∨ SuppressedAt ctxPlain [0] c4Pairs ⟨0, 0⟩ (0 + 12))) ∧
    (seqCPlain.isIntersected = false ∧
     applyInterval ctxPlain [0] 0 seqCPlain 0 (mkFrets "C" 0) 0 = .ok c4Apply ∧
     tagAt c4Apply ((0 : Int) + 0).toNat ⟨0, 0⟩ ∧
     tagAt c4Apply (((0 : Int) + 0 + 12).tmod ((NB_FRETS : Nat) : Int)).toNat ⟨0, 0⟩) :=
  ⟨⟨by decide, by decide, rfl, ⟨_, rfl, by decide⟩,
    octave_duplication.2 ctxPlain [0] c4Pairs "C" 0 c4Grid (by decide) (by decide) rfl
      0 (by decide) ⟨0, 0⟩ ⟨_, rfl, by decide⟩⟩,
   ⟨rfl, rfl,
    octave_duplication.1 ctxPlain [0] 0 seqCPlain 0 0 (mkFrets "C" 0) c4Apply
      rfl rfl rfl rfl⟩⟩

/-! ### Machinery: success of every fret-array access under valid inputs -/

theorem disp_error_cases {ctx : Ctx} {fr : Int} {idx : Nat} {s : Sequence} {offs : List Int}
    (h : shouldDisplayFret ctx fr idx s offs = .error ()) :
    s.position ≠ -1 ∧ s.position ≠ 0 ∧
    (ctx.models s.model = none ∨
      ∃ m ps, ctx.models s.model = some m ∧ m.positions = some ps ∧
        jsGet ps (s.position - 1) = none) := by
  unfold shouldDisplayFret at h
  by_cases hp1 : s.position = -1
  · rw [if_pos hp1] at h
    cases h
  rw [if_neg hp1] at h
  by_cases hp0 : s.position = 0
  · rw [if_pos hp0] at h
    cases h
  rw [if_neg hp0] at h
  refine ⟨hp1, hp0, ?_⟩
  cases hm : ctx.models s.model with
  | none => exact Or.inl rfl
  | some m =>
    rw [hm] at h
    right
    have h' : (match m.positions with
        | none => (Except.ok true : Except Unit Bool)
        | some ps =>
          match jsGet ps (s.position - 1) with
          | none => .error ()
          | some p =>
            match offs.get? idx with
            | none => .ok false
            | some offset => .ok (isInPosition fr p offset)) = .error () := h
    cases hps : m.positions with
    | none =>
      rw [hps] at h'
      cases h'
    | some ps =>
      rw [hps] at h'
      have h'' : (match jsGet ps (s.position - 1) with
          | none => (Except.error () : Except Unit Bool)
          | some p =>
            match offs.get? idx with
            | none => .ok false
            | some offset => .ok (isInPosition fr p offset)) = .error () := h'
      cases hrow : jsGet ps (s.position - 1) with
      | none => exact ⟨m, ps, rfl, hps, hrow⟩
      | some row =>
        rw [hrow] at h''
        have h''' : (match offs.get? idx with
            | none => (Except.ok false : Except Unit Bool)
            | some offset => .ok (isInPosition fr row offset)) = .error () := h''
        cases hoff : offs.get? idx with
        | none =>
          rw [hoff] at h'''
          cases h'''
        | some off =>
          rw [hoff] at h'''
          cases h'''

theorem disp_ok (ctx : Ctx) (fr : Int) (idx : Nat) (s : Sequence) (offs : List Int)
    (hv : ValidPositionConfig ctx s) :
    ∃ b, shouldDisplayFret ctx fr idx s offs = .ok b := by
  cases hd : shouldDisplayFret ctx fr idx s offs with
  | ok b => exact ⟨b, rfl⟩
  | error e =>
    exfalso
    cases e
    obtain ⟨hp1, hp0, herr⟩ := disp_error_cases hd
    rcases hv with h1 | h2 | ⟨m, hm, hrest⟩
    · exact hp1 h1
    · exact hp0 h2
    rcases herr with hnone | ⟨m', ps', hm', hps', hrow'⟩
    · rw [hm] at hnone
      cases hnone
    · rw [hm] at hm'
      cases hm'
      rcases hrest with hpn | ⟨ps, row, hps, hrow⟩
      · rw [hpn] at hps'
        cases hps'
      · rw [hps] at hps'
        cases hps'
        rw [hrow] at hrow'
        cases hrow'

theorem markPair_ok (ctx : Ctx) (offs : List Int) (idx : Nat) (seq : Sequence)
    (interval : Int) {fs : List Fret} {fr : Int}
    (hv : ValidPositionConfig ctx seq)
    (h0 : 0 ≤ fr) (h1 : fr.toNat < fs.length) :
    ∃ fs', markPair ctx offs idx seq interval fs fr = .ok fs' := by
  obtain ⟨b, hb⟩ := disp_ok ctx fr idx seq offs hv
  unfold markPair
  rw [hb, except_bind_ok]
  cases b with
  | false =>
    refine ⟨fs, ?_⟩
    rw [if_neg (by simp)]
    rfl
  | true =>
    obtain ⟨f, hf⟩ := jsGet_of_lt h0 h1
    rw [if_pos rfl, hf]
    exact ⟨_, rfl⟩

theorem applyInterval_ok (ctx : Ctx) (offs : List Int) (idx : Nat) (seq : Sequence)
    (rootFret : Int) (interval : Int) {fs : List Fret}
    (hv : ValidPositionConfig ctx seq)
    (hlen : fs.length = 24)
    (ht0 : 0 ≤ rootFret + interval) (ht1 : rootFret + interval < 24) :
    ∃ fs', applyInterval ctx offs idx seq rootFret fs interval = .ok fs' := by
  have hp0 : 0 ≤ (rootFret + interval + 12).tmod ((NB_FRETS : Nat) : Int) :=
    Int.tmod_nonneg _ (by omega)
  have hp1 : (rootFret + interval + 12).tmod ((NB_FRETS : Nat) : Int) < 24 := by
    rw [NB_FRETS_int]
    exact Int.tmod_lt_of_pos _ (by omega)
  have hap : ∃ fs', applyToPair ctx offs idx seq interval fs (rootFret + interval) = .ok fs' := by
    unfold applyToPair
    obtain ⟨fs₁, h1⟩ := markPair_ok ctx offs idx seq interval hv ht0
      (show (rootFret + interval).toNat < fs.length by omega)
    have hl1 : fs₁.length = 24 := by rw [markPair_length h1, hlen]
    obtain ⟨fs₂, h2⟩ := markPair_ok ctx offs idx seq interval hv hp0
      (show ((rootFret + interval + 12).tmod ((NB_FRETS : Nat) : Int)).toNat < fs₁.length
        by omega)
    refine ⟨fs₂, ?_⟩
    rw [List.foldlM_cons, h1, except_bind_ok, List.foldlM_cons, h2, except_bind_ok,
      List.foldlM_nil]
    rfl
  unfold applyInterval
  cases hI : seq.isIntersected with
  | false =>
    rw [if_neg (by simp [hI])]
    exact hap
  | true =>
    rw [if_pos rfl]
    obtain ⟨f, hf⟩ := jsGet_of_lt (l := fs) ht0 (by omega)
    rw [hf]
    show ∃ fs', (if f.sequences.length = 0 then (Except.ok fs : Except Unit (List Fret))
      else applyToPair ctx offs idx seq interval fs (rootFret + interval)) = .ok fs'
    by_cases hz : f.sequences.length = 0
    · rw [if_pos hz]
      exact ⟨fs, rfl⟩
    · rw [if_neg hz]
      exact hap

theorem rootFret_bounds {o : String} {sn : Nat} {fs : List Fret} {t : String}
    (ho : o ∈ notes) (ht : t ∈ notes)
    (hn : fs.map Fret.note = (mkFrets o sn).map Fret.note) :
    0 ≤ jsFindIndex fs (fun f => f.note = t) ∧
      jsFindIndex fs (fun f => f.note = t) < ((12 : Nat) : Int) := by
  obtain ⟨k₀, hk₀, hnote⟩ := root_exists ho ht
  have hbget : (mkFrets o sn).get? k₀ = some (mkFret o sn k₀) := mkFrets_get? o sn (by omega)
  have hmapeq : (fs.map Fret.note).get? k₀ = ((mkFrets o sn).map Fret.note).get? k₀ := by
    rw [hn]
  rw [get?_map_own, get?_map_own, hbget] at hmapeq
  cases hg : fs.get? k₀ with
  | none =>
    rw [hg] at hmapeq
    cases hmapeq
  | some a =>
    rw [hg] at hmapeq
    have hna : a.note = (mkFret o sn k₀).note := by simpa using hmapeq
    have hat : a.note = t := by rw [hna, mkFret_note ho, hnote]
    exact jsFindIndex_bounds ⟨k₀, a, hk₀, hg, by simp [hat]⟩

theorem markSequence_ok {ctx : Ctx} {offs : List Int} {pairs : List (Nat × Sequence)}
    {o : String} {sn : Nat} {idx : Nat} {seq : Sequence} {fs : List Fret}
    (ho : o ∈ notes) (hton : seq.tonality ∈ notes)
    (hv : ValidPositionConfig ctx seq)
    (hmem : (idx, seq) ∈ pairs)
    (hints : ∀ i ∈ ctx.intervalsForSequence seq, 0 ≤ i ∧ i ≤ 12)
    (hinv : MarkInv ctx offs pairs (mkFrets o sn) fs) :
    ∃ fs', markSequence ctx offs fs idx seq = .ok fs' ∧
      MarkInv ctx offs pairs (mkFrets o sn) fs' := by
  unfold markSequence
  have hroot := rootFret_bounds ho hton hinv.2.1
  refine foldlM_ok_exists
    (MarkInv ctx offs pairs (mkFrets o sn))
    (applyInterval ctx offs idx seq (jsFindIndex fs (fun f => f.note = seq.tonality)))
    ((0 : Int) :: ctx.intervalsForSequence seq) fs hinv ?_
  intro b₁ i hi hb₁
  have hib : 0 ≤ i ∧ i ≤ 12 := by
    rcases List.mem_cons.mp hi with rfl | hi'
    · exact ⟨le_refl 0, by omega⟩
    · exact hints i hi'
  have hlen : b₁.length = 24 := by rw [hb₁.1, mkFrets_length]
  obtain ⟨b₂, hstep⟩ := applyInterval_ok ctx offs idx seq
    (jsFindIndex fs (fun f => f.note = seq.tonality)) i hv hlen (by omega) (by omega)
  exact ⟨b₂, hstep, applyInterval_inv hmem (by omega) (by omega) hb₁ hstep⟩

theorem mkFrets_base_inv (ctx : Ctx) (offs : List Int) (pairs : List (Nat × Sequence))
    (o : String) (sn : Nat) : MarkInv ctx offs pairs (mkFrets o sn) (mkFrets o sn) := by
  refine ⟨rfl, rfl, ?_⟩
  intro k hk tag htag
  exfalso
  obtain ⟨f, hget, hmem⟩ := htag
  rw [mkFrets_get? o sn hk] at hget
  cases hget
  cases hmem

theorem markAllWith_ok (ctx : Ctx) (offs : List Int) (pairs : List (Nat × Sequence))
    (o : String) (sn : Nat)
    (ho : o ∈ notes)
    (hpairs : ∀ p ∈ pairs, p.2.tonality ∈ notes ∧ ValidPositionConfig ctx p.2 ∧
      ∀ i ∈ ctx.intervalsForSequence p.2, 0 ≤ i ∧ i ≤ 12) :
    ∃ fs', markAllWith ctx offs pairs (mkFrets o sn) = .ok fs' := by
  unfold markAllWith
  have hstep : ∀ b₁ p, p ∈ pairs → MarkInv ctx offs pairs (mkFrets o sn) b₁ →
      ∃ b₂, markSequence ctx offs b₁ p.1 p.2 = .ok b₂ ∧
        MarkInv ctx offs pairs (mkFrets o sn) b₂ := by
    intro b₁ p hp hb₁
    have hps := hpairs p hp
    exact markSequence_ok ho hps.1 hps.2.1 (by simpa using hp) hps.2.2 hb₁
  obtain ⟨fs', hfold, _⟩ := foldlM_ok_exists (MarkInv ctx offs pairs (mkFrets o sn))
    (fun fs p => markSequence ctx offs fs p.1 p.2) pairs (mkFrets o sn)
    (mkFrets_base_inv ctx offs pairs o sn) hstep
  exact ⟨fs', hfold⟩

theorem stringFrets_ok (ctx : Ctx) (offs : List Int) (pairs : List (Nat × Sequence))
    (sn : Nat) {o : String}
    (ho : o ∈ notes)
    (hpairs : ∀ p ∈ pairs, p.2.tonality ∈ notes ∧ ValidPositionConfig ctx p.2 ∧
      ∀ i ∈ ctx.intervalsForSequence p.2, 0 ≤ i ∧ i ≤ 12) :
    ∃ out, stringFrets ctx offs pairs sn o = .ok out := by
  obtain ⟨fs', h⟩ := markAllWith_ok ctx offs pairs o sn ho hpairs
  have hs : stringFrets ctx offs pairs sn o =
      .ok (fs' ++ (jsSliceTo fs' ((MAX_NB_FRETS : Int) - (NB_FRETS : Int))).map
        (fun f => { f with number := f.number + NB_FRETS })) := by
    unfold stringFrets
    show (markAllWith ctx offs pairs (mkFrets o sn) >>= fun marked =>
        pure (marked ++ (jsSliceTo marked ((MAX_NB_FRETS : Int) - (NB_FRETS : Int))).map
          (fun f => { f with number := f.number + NB_FRETS }))) = _
    rw [h, except_bind_ok]
    rfl
  exact ⟨_, hs⟩

theorem corePipeline_fold_ok (ctx : Ctx) (offs : List Int) (pairs : List (Nat × Sequence))
    (tuningNotes : List String)
    (htuning : ∀ t ∈ tuningNotes, t ∈ notes)
    (hpairs : ∀ p ∈ pairs, p.2.tonality ∈ notes ∧ ValidPositionConfig ctx p.2 ∧
      ∀ i ∈ ctx.intervalsForSequence p.2, 0 ≤ i ∧ i ≤ 12) :
    ∃ A, tuningNotes.enum.foldlM
      (fun acc p => do
        let fs ← stringFrets ctx offs pairs p.1 p.2
        pure (acc ++ fs)) ([] : List Fret) = .ok A := by
  have hstep : ∀ (b₁ : List Fret) p, p ∈ tuningNotes.enum → True →
      ∃ b₂, (do
        let fs ← stringFrets ctx offs pairs p.1 p.2
        pure (b₁ ++ fs) : Except Unit (List Fret)) = .ok b₂ ∧ True := by
    intro b₁ p hp _
    have ho : p.2 ∈ notes := htuning p.2 (snd_mem_of_mem_enum hp)
    obtain ⟨out, hout⟩ := stringFrets_ok ctx offs pairs p.1 ho hpairs
    refine ⟨b₁ ++ out, ?_, trivial⟩
    rw [hout]
    rfl
  obtain ⟨A, hA, _⟩ := foldlM_ok_exists (fun _ => True) _ tuningNotes.enum [] trivial hstep
  exact ⟨A, hA⟩

theorem corePipeline_ok (ctx : Ctx) (sequences : List Sequence) (tuningNotes : List String)
    (flipped : Bool) (pairs : List (Nat × Sequence))
    (htuning : ∀ t ∈ tuningNotes, t ∈ notes)
    (hpairs : ∀ p ∈ pairs, p.2.tonality ∈ notes ∧ ValidPositionConfig ctx p.2 ∧
      ∀ i ∈ ctx.intervalsForSequence p.2, 0 ≤ i ∧ i ≤ 12) :
    ∃ A, corePipeline ctx sequences tuningNotes flipped pairs = .ok A := by
  obtain ⟨A, hA⟩ := corePipeline_fold_ok ctx
    (positionOffsets sequences tuningNotes flipped) pairs tuningNotes htuning hpairs
  have hc : corePipeline ctx sequences tuningNotes flipped pairs =
      .ok (ctx.shiftSequencesDown A) := by
    unfold corePipeline
    show (tuningNotes.enum.foldlM
        (fun acc p => do
          let fs ← stringFrets ctx (positionOffsets sequences tuningNotes flipped) pairs p.1 p.2
          pure (acc ++ fs)) [] >>= fun allFrets => pure (ctx.shiftSequencesDown allFrets)) = _
    rw [hA, except_bind_ok]
    rfl
  exact ⟨_, hc⟩

theorem mem_sortSequences {s : Sequence} {l : List Sequence} (h : s ∈ sortSequences l) :
    s ∈ l := by
  unfold sortSequences at h
  rcases List.mem_append.mp h with h | h
  · exact (List.mem_filter.mp h).1
  · exact (List.mem_filter.mp h).1

theorem mkFrets_find_invalid {o : String} {sn : Nat} {t : String}
    (ho : o ∈ notes) (ht : t ∉ notes) :
    jsFindIndex (mkFrets o sn) (fun f => f.note = t) = -1 := by
  apply jsFindIndex_none
  intro f hf
  obtain ⟨k, hk, rfl⟩ := List.mem_map.mp hf
  have hne : (mkFret o sn k).note ≠ t := by
    rw [mkFret_note ho]
    intro he
    exact ht (he ▸ noteAt_mem o k)
  simp [hne]

theorem markSequence_invalid_tonality {ctx : Ctx} {offs : List Int} {idx : Nat}
    {seq : Sequence} {o : String} {sn : Nat}
    (ho : o ∈ notes) (ht : seq.tonality ∉ notes) (hp : seq.position = 0) :
    markSequence ctx offs (mkFrets o sn) idx seq = .error () := by
  unfold markSequence
  rw [mkFrets_find_invalid ho ht]
  apply foldlM_cons_error
  unfold applyInterval
  have hnone : jsGet (mkFrets o sn) (-1 + 0) = none := by
    unfold jsGet
    rw [if_pos (by omega)]
  cases hI : seq.isIntersected with
  | true =>
    rw [if_pos rfl, hnone]
  | false =>
    rw [if_neg (by simp)]
    unfold applyToPair
    apply foldlM_cons_error
    unfold markPair
    have hdisp : shouldDisplayFret ctx (-1 + 0) idx seq offs = .ok true := by
      unfold shouldDisplayFret
      rw [if_neg (by rw [hp]; decide), if_pos hp]
    rw [hdisp, except_bind_ok, if_pos rfl, hnone]

/-! ### Claim C10 -/

/-- Claim C10: when every tuning note and every sequence tonality is in the
chromatic set (so each root fret is in `[0, 11]`), every generated interval is
an octave step (so `rootFret + interval ≤ NB_FRETS - 1`), and every position
configuration is resolvable, all fret-array accesses of `getFrets` are in
bounds and the build returns a grid; when a tonality is outside the set, the
root-fret lookup yields `-1` and applying the root interval dereferences
`frets[-1]`, which is `undefined` — the build throws. -/
theorem getFrets_index_safety :
    (∀ (ctx : Ctx) (sequences : List Sequence) (tuningNotes : List String)
        (capo : Nat) (flipped : Bool),
      (∀ t ∈ tuningNotes, t ∈ notes) →
      (∀ s ∈ sequences, s.tonality ∈ notes ∧ ValidPositionConfig ctx s ∧
        ∀ i ∈ ctx.intervalsForSequence s, 0 ≤ i ∧ i ≤ 12) →
      ∃ g, getFrets ctx sequences tuningNotes capo flipped = .ok g) ∧
    (∀ (ctx : Ctx) (offs : List Int) (idx : Nat) (seq : Sequence) (o : String) (sn : Nat),
      o ∈ notes → seq.tonality ∉ notes → seq.position = 0 →
      jsFindIndex (mkFrets o sn) (fun f => f.note = seq.tonality) = -1 ∧
        markSequence ctx offs (mkFrets o sn) idx seq = .error ()) := by
  constructor
  · intro ctx sequences tuningNotes capo flipped htuning hseqs
    have hpairs : ∀ p ∈ (sortSequences sequences).enum, p.2.tonality ∈ notes ∧
        ValidPositionConfig ctx p.2 ∧
        ∀ i ∈ ctx.intervalsForSequence p.2, 0 ≤ i ∧ i ≤ 12 := by
      intro p hp
      exact hseqs p.2 (mem_sortSequences (snd_mem_of_mem_enum hp))
    obtain ⟨A, hA⟩ := corePipeline_ok ctx sequences tuningNotes flipped
      ((sortSequences sequences).enum) htuning hpairs
    have hg : getFrets ctx sequences tuningNotes capo flipped = .ok (filterCapo A capo) := by
      unfold getFrets getFretsCore
      rw [hA]
      rfl
    exact ⟨_, hg⟩
  · intro ctx offs idx seq o sn ho ht hp
    exact ⟨mkFrets_find_invalid ho ht, markSequence_invalid_tonality ho ht hp⟩

/-- Witness for C10: a valid build over an E string with one whole-scale C
sequence and capo 2 succeeds; the invalid tonality "X" makes the root-fret
lookup return `-1` and the marking pass throw. -/
theorem getFrets_index_safety_witness :
    ((∀ t ∈ ["E"], t ∈ notes) ∧
     (∀ s ∈ [seqCPlain], s.tonality ∈ notes ∧ ValidPositionConfig ctxPlain s ∧
       ∀ i ∈ ctxPlain.intervalsForSequence s, 0 ≤ i ∧ i ≤ 12) ∧
     ∃ g, getFrets ctxPlain [seqCPlain] ["E"] 2 false = .ok g) ∧
    ("E" ∈ notes ∧ "X" ∉ notes ∧ seqX.position = 0 ∧
     jsFindIndex (mkFrets "E" 0) (fun f => f.note = seqX.tonality) = -1 ∧
     markSequence ctxPlain [0] (mkFrets "E" 0) 0 seqX = .error ()) := by
  have hseqs : ∀ s ∈ [seqCPlain], s.tonality ∈ notes ∧ ValidPositionConfig ctxPlain s ∧
      ∀ i ∈ ctxPlain.intervalsForSequence s, 0 ≤ i ∧ i ≤ 12 := by
    intro s hs
    rw [List.mem_singleton] at hs
    subst hs
    exact ⟨by decide, Or.inr (Or.inl rfl), by decide⟩
  have h2 := getFrets_index_safety.2 ctxPlain [0] 0 seqX "E" 0 (by decide) (by decide) rfl
  exact ⟨⟨by decide, hseqs,
    getFrets_index_safety.1 ctxPlain [seqCPlain] ["E"] 2 false (by decide) hseqs⟩,
    ⟨by decide, by decide, rfl, h2.1, h2.2⟩⟩

/-! ### Machinery: the note formula through the whole pipeline -/

theorem noteFormula_transfer {tuningNotes : List String} {g g' : List Fret}
    (hs : g'.map skel = g.map skel)
    (h : ∀ f ∈ g, NoteFormula tuningNotes (skel f)) :
    ∀ f ∈ g', NoteFormula tuningNotes (skel f) := by
  intro f hf
  have hmem : skel f ∈ g'.map skel := List.mem_map_of_mem skel hf
  rw [hs] at hmem
  obtain ⟨f₀, hf₀, he⟩ := List.mem_map.mp hmem
  rw [← he]
  exact h f₀ hf₀

theorem applyInterval_skel {ctx : Ctx} {offs : List Int} {index : Nat} {seq : Sequence}
    {rootFret : Int} {fs : List Fret} {interval : Int} {fs' : List Fret}
    (h : applyInterval ctx offs index seq rootFret fs interval = .ok fs') :
    fs'.map skel = fs.map skel := by
  unfold applyInterval at h
  cases hI : seq.isIntersected with
  | false =>
    rw [hI, if_neg (by simp)] at h
    obtain ⟨fs₁, h1, h2⟩ := applyToPair_ok_elim h
    rw [markPair_skel h2, markPair_skel h1]
  | true =>
    rw [hI, if_pos rfl] at h
    cases hg : jsGet fs (rootFret + interval) with
    | none =>
      rw [hg] at h
      cases h
    | some f =>
      rw [hg] at h
      have h' : (if f.sequences.length = 0 then (Except.ok fs : Except Unit (List Fret))
          else applyToPair ctx offs index seq interval fs (rootFret + interval)) = .ok fs' := h
      by_cases hz : f.sequences.length = 0
      · rw [if_pos hz] at h'
        cases h'
        rfl
      · rw [if_neg hz] at h'
        obtain ⟨fs₁, h1, h2⟩ := applyToPair_ok_elim h'
        rw [markPair_skel h2, markPair_skel h1]

theorem markSequence_skel {ctx : Ctx} {offs : List Int} {fs : List Fret} {index : Nat}
    {seq : Sequence} {fs' : List Fret}
    (h : markSequence ctx offs fs index seq = .ok fs') :
    fs'.map skel = fs.map skel := by
  unfold markSequence at h
  refine foldlM_ok_invariant (fun b => b.map skel = fs.map skel) _ _ fs rfl ?_ fs' h
  intro b₁ a ha hb b₂ hstep
  rw [applyInterval_skel hstep, hb]

theorem markAllWith_skel {ctx : Ctx} {offs : List Int} {pairs : List (Nat × Sequence)}
    {base : List Fret} {fs' : List Fret}
    (h : markAllWith ctx offs pairs base = .ok fs') :
    fs'.map skel = base.map skel := by
  unfold markAllWith at h
  refine foldlM_ok_invariant (fun b => b.map skel = base.map skel) _ _ base rfl ?_ fs' h
  intro b₁ p hp hb b₂ hstep
  rw [markSequence_skel hstep, hb]

theorem mkFrets_noteFormula {tuningNotes : List String} {sn : Nat} {o : String}
    (hget : tuningNotes.get? sn = some o) (ho : o ∈ notes) :
    ∀ f ∈ mkFrets o sn, NoteFormula tuningNotes (skel f) := by
  intro f hf
  obtain ⟨k, hk, rfl⟩ := List.mem_map.mp hf
  refine ⟨o, hget, ?_⟩
  show notes.get? (((jsIndexOf notes o).toNat + k) % 12) = some (mkFret o sn k).note
  rw [mkFret_note ho]
  unfold noteAt
  cases hg : notes.get? (((jsIndexOf notes o).toNat + k) % 12) with
  | some n => rfl
  | none =>
    have hlt : (((jsIndexOf notes o).toNat + k) % 12) < notes.length := by
      have h12 : notes.length = 12 := rfl
      omega
    rw [List.get?_eq_get hlt] at hg
    cases hg

theorem get?_of_mem_enumFrom {α : Type} :
    ∀ (l : List α) (n : Nat) (p : Nat × α), p ∈ l.enumFrom n →
      n ≤ p.1 ∧ l.get? (p.1 - n) = some p.2 := by
  intro l
  induction l with
  | nil =>
    intro n p h
    cases h
  | cons a as ih =>
    intro n p h
    simp only [List.enumFrom] at h
    cases h with
    | head =>
      constructor
      · exact le_refl n
      · simp
    | tail _ h' =>
      obtain ⟨h1, h2⟩ := ih (n + 1) p h'
      constructor
      · omega
      · have hsub : p.1 - n = (p.1 - (n + 1)) + 1 := by omega
        rw [hsub]
        exact h2

theorem get?_of_mem_enum {α : Type} {l : List α} {p : Nat × α} (h : p ∈ l.enum) :
    l.get? p.1 = some p.2 := by
  have hp := get?_of_mem_enumFrom l 0 p h
  simpa using hp.2

theorem stringFrets_noteFormula {ctx : Ctx} {offs : List Int}
    {pairs : List (Nat × Sequence)} {tuningNotes : List String} {sn : Nat} {o : String}
    {out : List Fret}
    (hget : tuningNotes.get? sn = some o) (ho : o ∈ notes)
    (h : stringFrets ctx offs pairs sn o = .ok out) :
    ∀ f ∈ out, NoteFormula tuningNotes (skel f) := by
  have h' : (markAllWith ctx offs pairs (mkFrets o sn) >>= fun marked =>
      pure (marked ++ (jsSliceTo marked ((MAX_NB_FRETS : Int) - (NB_FRETS : Int))).map
        (fun f => { f with number := f.number + NB_FRETS }))) = .ok out := h
  cases hm : markAllWith ctx offs pairs (mkFrets o sn) with
  | error e =>
    rw [hm, except_bind_error] at h'
    cases h'
  | ok marked =>
    rw [hm, except_bind_ok] at h'
    cases h'
    have hmarked : ∀ f ∈ marked, NoteFormula tuningNotes (skel f) :=
      noteFormula_transfer (markAllWith_skel hm) (mkFrets_noteFormula hget ho)
    intro f hf
    rcases List.mem_append.mp hf with hf1 | hf2
    · exact hmarked f hf1
    · obtain ⟨f₀, hf₀, rfl⟩ := List.mem_map.mp hf2
      have hf₀m : f₀ ∈ marked := by
        unfold jsSliceTo at hf₀
        exact List.take_subset _ _ hf₀
      obtain ⟨op, hop, hnote⟩ := hmarked f₀ hf₀m
      refine ⟨op, hop, ?_⟩
      show notes.get? (((jsIndexOf notes op).toNat + (f₀.number + NB_FRETS)) % 12) =
        some f₀.note
      have h24 : ((jsIndexOf notes op).toNat + (f₀.number + NB_FRETS)) % 12 =
          ((jsIndexOf notes op).toNat + f₀.number) % 12 := by
        have hNB : NB_FRETS = 24 := rfl
        omega
      rw [h24]
      exact hnote

theorem filterCapo_skel (g : List Fret) (capo : Nat) :
    (filterCapo g capo).map skel = g.map skel := by
  unfold filterCapo
  rw [List.map_map]
  have hfun : (skel ∘ fun fret : Fret =>
      { fret with sequences := if fret.number < capo then [] else fret.sequences }) = skel := by
    funext f
    rfl
  rw [hfun]

theorem corePipeline_noteFormula {ctx : Ctx} {sequences : List Sequence}
    {tuningNotes : List String} {flipped : Bool} {pairs : List (Nat × Sequence)}
    {g : List Fret}
    (hshift : ∀ gg : List Fret, (ctx.shiftSequencesDown gg).map skel = gg.map skel)
    (htuning : ∀ t ∈ tuningNotes, t ∈ notes)
    (h : corePipeline ctx sequences tuningNotes flipped pairs = .ok g) :
    ∀ f ∈ g, NoteFormula tuningNotes (skel f) := by
  unfold corePipeline at h
  have h' : (tuningNotes.enum.foldlM
      (fun acc p => do
        let fs ← stringFrets ctx (positionOffsets sequences tuningNotes flipped) pairs p.1 p.2
        pure (acc ++ fs)) [] >>= fun allFrets =>
      pure (ctx.shiftSequencesDown allFrets)) = .ok g := h
  cases hA : tuningNotes.enum.foldlM
      (fun acc p => do
        let fs ← stringFrets ctx (positionOffsets sequences tuningNotes flipped) pairs p.1 p.2
        pure (acc ++ fs)) ([] : List Fret) with
  | error e =>
    rw [hA, except_bind_error] at h'
    cases h'
  | ok A =>
    rw [hA, except_bind_ok] at h'
    cases h'
    have hAprop : ∀ f ∈ A, NoteFormula tuningNotes (skel f) := by
      refine foldlM_ok_invariant (fun acc => ∀ f ∈ acc, NoteFormula tuningNotes (skel f))
        _ _ [] (by intro f hf; cases hf) ?_ A hA
      intro b₁ p hp hb b₂ hstep
      cases hsf : stringFrets ctx (positionOffsets sequences tuningNotes flipped)
          pairs p.1 p.2 with
      | error e =>
        rw [hsf, except_bind_error] at hstep
        cases hstep
      | ok out =>
        rw [hsf, except_bind_ok] at hstep
        cases hstep
        intro f hf
        rcases List.mem_append.mp hf with h1 | h2
        · exact hb f h1
        · have hgetp : tuningNotes.get? p.1 = some p.2 := get?_of_mem_enum hp
          exact stringFrets_noteFormula hgetp (htuning p.2 (List.get?_mem hgetp)) hsf f h2
    exact noteFormula_transfer (hshift A) hAprop

/-! ### Claim C5 -/

/-- Claim C5: for every capo and every fret of the returned grid — the
duplicated extension frets with `number ≥ NB_FRETS` included — the fret's
`note` is the chromatic note at index `(index of its string's open note +
fret number) mod 12`; the formula does not mention the capo, so `note` is
unaffected by it.  The black-box `shiftSequencesDown` is assumed to preserve
each cell's identity fields (string, number, note), which is what "row-shift
transform on the sequence annotations" (spec §4.5) guarantees. -/
theorem getFrets_note_formula (ctx : Ctx) (sequences : List Sequence)
    (tuningNotes : List String) (capo : Nat) (flipped : Bool)
    (hshift : ∀ g : List Fret, (ctx.shiftSequencesDown g).map skel = g.map skel)
    (htuning : ∀ t ∈ tuningNotes, t ∈ notes) :
    ∀ g, getFrets ctx sequences tuningNotes capo flipped = .ok g →
      ∀ f ∈ g, NoteFormula tuningNotes (skel f) := by
  intro g hg f hf
  unfold getFrets getFretsCore at hg
  cases hc : corePipeline ctx sequences tuningNotes flipped
      ((sortSequences sequences).enum) with
  | error e =>
    rw [hc] at hg
    cases hg
  | ok A =>
    rw [hc] at hg
    have hg' : Except.ok (filterCapo A capo) = Except.ok g := hg
    cases hg'
    exact noteFormula_transfer (filterCapo_skel A capo)
      (corePipeline_noteFormula hshift htuning hc) f hf

/-- Witness for C5: the empty sequence list over a one-string E tuning with
the identity flip corrector; the build succeeds and every returned fret obeys
the note formula. -/
theorem getFrets_note_formula_witness :
    (∀ g : List Fret, (ctxPlain.shiftSequencesDown g).map skel = g.map skel) ∧
    (∀ t ∈ ["E"], t ∈ notes) ∧
    (∃ g, getFrets ctxPlain [] ["E"] 0 false = .ok g) ∧
    (∀ g, getFrets ctxPlain [] ["E"] 0 false = .ok g →
      ∀ f ∈ g, NoteFormula ["E"] (skel f)) :=
  ⟨fun g => rfl, by decide, ⟨_, rfl⟩,
    getFrets_note_formula ctxPlain [] ["E"] 0 false (fun g => rfl) (by decide)⟩

end Fretboard
